import Mathlib

/-!
Verification of the event reconciliation pipeline of the
Termine-Recklinghausen repository (src/app.py and src/scraper.py).

Modeling conventions for the shallow embedding:

* Python strings are Lean `String` values; character-level operations work
  on `List Char` (Unicode code points, as in Python 3).
* Python `str.lower` and the regex classes `\w`, `\s`, `\d` are modeled by
  executable character tables covering ASCII and the Latin-1 / Latin
  Extended ranges that the scraped German event data inhabits.
* Python `list.sort` is a stable sort; it is modeled by a stable insertion
  sort (`sortiereStabil`), which computes the same function as any stable
  sort with the same comparison.
* Python `dict` insertion order is modeled by an association list
  (`dictEinfuegen` / `gruppiereNachDatum`).
* `datetime.datetime` values are modeled by the `DateTime` structure; the
  validity invariants that the `datetime` constructor enforces are the
  predicate `gueltigesDatum`, and `strftime` with format `%Y-%m-%d` is the
  zero-padded decimal rendering `datumsSchluessel`.
-/

/-- Character table for the regex class `\s` (and `str.strip`):
space, tab, newline, carriage return, vertical tab, form feed, no-break
space. -/
def istLeerraum (c : Char) : Bool :=
  c == ' ' || c == '\t' || c == '\n' || c == '\r' ||
  c.toNat == 11 || c.toNat == 12 || c.toNat == 0xA0

/-- Decimal digit, the regex class `\d` restricted to ASCII. -/
def istZiffer (c : Char) : Bool :=
  48 ≤ c.toNat && c.toNat ≤ 57

/-- Unicode letter, restricted to ASCII plus the Latin-1 and Latin
Extended ranges (this covers all characters occurring in the scraped
German event names, in particular the umlauts and `é`). -/
def istBuchstabe (c : Char) : Bool :=
  (97 ≤ c.toNat && c.toNat ≤ 122) || (65 ≤ c.toNat && c.toNat ≤ 90) ||
  (0xC0 ≤ c.toNat && c.toNat ≤ 0x24F && c.toNat != 0xD7 && c.toNat != 0xF7) ||
  c.toNat == 0xB5 || c.toNat == 0xAA || c.toNat == 0xBA

/-- Character table for the regex class `\w`: letters, decimal digits and
the underscore. -/
def istWortzeichen (c : Char) : Bool :=
  istBuchstabe c || istZiffer c || c == '_'

/-- Model of Python `str.lower` on one code point, covering ASCII and the
Latin-1 uppercase range (which contains every uppercase character of the
scraped data). -/
def pyLowerChar (c : Char) : Char :=
  if 65 ≤ c.toNat ∧ c.toNat ≤ 90 then Char.ofNat (c.toNat + 32)
  else if 0xC0 ≤ c.toNat ∧ c.toNat ≤ 0xDE ∧ c.toNat ≠ 0xD7 then Char.ofNat (c.toNat + 32)
  else c

/-- Model of Python `str.strip()`: drop leading and trailing whitespace. -/
def pyStrip (cs : List Char) : List Char :=
  ((cs.dropWhile istLeerraum).reverse.dropWhile istLeerraum).reverse

/-- Model of `re.sub(r'[^\w\s]', '', ...)` (src/app.py line 38): the scan
deletes every character that matches the class `[^\w\s]`. -/
def subEntferne : List Char → List Char
  | [] => []
  | c :: rest =>
    if !(istWortzeichen c || istLeerraum c) then subEntferne rest
    else c :: subEntferne rest

/-- Model of `re.sub(r'\s+', ' ', ...)` (src/app.py line 39): a left to
right scan replacing each maximal whitespace run by a single space.  The
flag records whether the previous character was part of a whitespace
run. -/
def kollabiere : Bool → List Char → List Char
  | _, [] => []
  | vorherLeer, c :: rest =>
    if istLeerraum c then
      if vorherLeer then kollabiere true rest
      else ' ' :: kollabiere true rest
    else c :: kollabiere false rest

/-- Embedding of `_normalisiere` (src/app.py lines 35-40):
`name.lower().strip()`, then `re.sub(r'[^\w\s]', '', name)`, then
`re.sub(r'\s+', ' ', name)`. -/
def _normalisiere (name : String) : String :=
  String.mk (kollabiere false (subEntferne (pyStrip (name.toList.map pyLowerChar))))

/-- Model of the calendar date and time stored in a Python
`datetime.datetime` (naive, no time zone, as in the scraper). -/
structure DateTime where
  jahr : Nat
  monat : Nat
  tag : Nat
  stunde : Nat
  minute : Nat
  sekunde : Nat
deriving DecidableEq, Repr

/-- Validity invariant that the Python `datetime` constructor enforces:
`MINYEAR = 1 <= year <= MAXYEAR = 9999`, `1 <= month <= 12`,
`1 <= day <= 31`, and in-range time fields. -/
def gueltigesDatum (d : DateTime) : Prop :=
  1 ≤ d.jahr ∧ d.jahr ≤ 9999 ∧ 1 ≤ d.monat ∧ d.monat ≤ 12 ∧
  1 ≤ d.tag ∧ d.tag ≤ 31 ∧ d.stunde < 24 ∧ d.minute < 60 ∧ d.sekunde < 60

instance (d : DateTime) : Decidable (gueltigesDatum d) := by
  unfold gueltigesDatum; infer_instance

/-- Embedding of the dataclass `Termin` (src/scraper.py lines 40-50). -/
structure Termin where
  name : String
  datum : DateTime
  uhrzeit : String
  ort : String
  link : String
  beschreibung : String := ""
  quelle : String := ""
  kategorie : String := ""
deriving DecidableEq, Repr

/-- Embedding of `_termin_score` (src/app.py lines 43-54): +2 for a
non-empty link, +2 for a time that is neither empty nor one of the two
placeholders, +1 for a non-empty description, +1 for a non-empty
location. -/
def _termin_score (t : Termin) : Nat :=
  (if t.link ≠ "" then 2 else 0) +
  (if t.uhrzeit ≠ "" ∧ t.uhrzeit ≠ "ganztägig" ∧ t.uhrzeit ≠ "siehe Website" then 2 else 0) +
  (if t.beschreibung ≠ "" then 1 else 0) +
  (if t.ort ≠ "" then 1 else 0)

/-- Last decimal digit of `n` as a character. -/
def ziffernZeichen (n : Nat) : Char := Char.ofNat (48 + n % 10)

/-- Two-digit zero-padded rendering, as produced by `strftime` fields
`%m`, `%d`, `%H` for valid dates. -/
def zweistellig (n : Nat) : List Char := [ziffernZeichen (n / 10), ziffernZeichen n]

/-- Four-digit zero-padded rendering, as produced by `strftime` field
`%Y` for valid years. -/
def vierstellig (n : Nat) : List Char :=
  [ziffernZeichen (n / 1000), ziffernZeichen (n / 100), ziffernZeichen (n / 10), ziffernZeichen n]

/-- Embedding of `datum.strftime('%Y-%m-%d')` applied to a `DateTime`. -/
def datumsSchluessel (d : DateTime) : String :=
  String.mk (vierstellig d.jahr ++ '-' :: (zweistellig d.monat ++ '-' :: zweistellig d.tag))

/-- Date key of an event, `t.datum.strftime('%Y-%m-%d')`
(src/app.py line 62). -/
def datumKey (t : Termin) : String := datumsSchluessel t.datum

/-- Model of `nach_datum.setdefault(key, []).append(t)` on an insertion
ordered dictionary represented as an association list: append to the
entry of `key` if present, otherwise add a new entry at the end. -/
def dictEinfuegen (d : List (String × List Termin)) (key : String) (t : Termin) :
    List (String × List Termin) :=
  match d with
  | [] => [(key, [t])]
  | (k, g) :: rest =>
    if k = key then (k, g ++ [t]) :: rest
    else (k, g) :: dictEinfuegen rest key t

/-- Embedding of the grouping loop of `entferne_duplikate`
(src/app.py lines 60-63). -/
def gruppiereNachDatum (termine : List Termin) : List (String × List Termin) :=
  termine.foldl (fun d t => dictEinfuegen d (datumKey t) t) []

/-- Dictionary lookup `nach_datum[datum_key]` (first matching entry). -/
def holeGruppe (d : List (String × List Termin)) (key : String) : List Termin :=
  match d with
  | [] => []
  | (k, g) :: rest => if k = key then g else holeGruppe rest key

/-- Strict code-point lexicographic comparison of character lists, the
order Python uses to compare strings. -/
def zeichenlisteLt : List Char → List Char → Bool
  | [], [] => false
  | [], _ :: _ => true
  | _ :: _, [] => false
  | a :: as, b :: bs =>
    if a.toNat < b.toNat then true
    else if b.toNat < a.toNat then false
    else zeichenlisteLt as bs

/-- Python string comparison `a < b`. -/
def stringLt (a b : String) : Bool := zeichenlisteLt a.toList b.toList

/-- Insert into a sorted list in front of the first element `b` with
`le a b`; this is the insertion step of a stable sort. -/
def fuegeSortiertEin (le : α → α → Bool) (a : α) : List α → List α
  | [] => [a]
  | b :: bs => if le a b then a :: b :: bs else b :: fuegeSortiertEin le a bs

/-- Stable sort with respect to the boolean comparison `le`.  Python
`list.sort` (Timsort) is stable, hence computes this same function for
any total preorder `le`. -/
def sortiereStabil (le : α → α → Bool) : List α → List α
  | [] => []
  | a :: as => fuegeSortiertEin le a (sortiereStabil le as)

/-- Comparison used by `gruppe.sort(key=lambda t: -_termin_score(t))`
(src/app.py line 69): ascending in the negated score, that is descending
in the score. -/
def scoreAbsteigend (a b : Termin) : Bool :=
  decide (_termin_score b ≤ _termin_score a)

/-- Comparison used by `sorted(nach_datum)` on the date keys:
`a` may precede `b` whenever `b < a` does not hold. -/
def schluesselLe (a b : String) : Bool := !(stringLt b a)

/-- Python substring test `nadel in heuhaufen` on code-point lists. -/
def istTeilzeichenkette (nadel : List Char) : List Char → Bool
  | [] => nadel.isPrefixOf []
  | c :: rest => nadel.isPrefixOf (c :: rest) || istTeilzeichenkette nadel rest

/-- The duplicate test of src/app.py line 78 for one pair of events:
equal normalized names, or one normalized name contained in the other. -/
def namensKollision (kandidat vorhandener : Termin) : Bool :=
  let nk := (_normalisiere kandidat.name).toList
  let nv := (_normalisiere vorhandener.name).toList
  nk == nv || istTeilzeichenkette nk nv || istTeilzeichenkette nv nk

/-- Inner loop of src/app.py lines 75-80: the candidate is a duplicate if
it collides with some already kept event. -/
def istDuplikat (kandidat : Termin) (behalten : List Termin) : Bool :=
  behalten.any fun vorhandener => namensKollision kandidat vorhandener

/-- Candidate walk of src/app.py lines 71-82: keep each candidate that
does not collide with an already kept event. -/
def behalteSchleife : List Termin → List Termin → List Termin
  | [], behalten => behalten
  | kandidat :: rest, behalten =>
    if istDuplikat kandidat behalten then behalteSchleife rest behalten
    else behalteSchleife rest (behalten ++ [kandidat])

/-- Embedding of `entferne_duplikate` (src/app.py lines 57-86): group by
date key, walk the keys in sorted order, sort each group by descending
score (stable), run the keep loop, and concatenate the kept lists. -/
def entferne_duplikate (termine : List Termin) : List Termin :=
  let nach_datum := gruppiereNachDatum termine
  (sortiereStabil schluesselLe (nach_datum.map Prod.fst)).flatMap fun datum_key =>
    behalteSchleife (sortiereStabil scoreAbsteigend (holeGruppe nach_datum datum_key)) []

/-- Strict comparison of two `DateTime` values, the lexicographic order
on the component tuple that Python `datetime` comparison implements. -/
def datumLt (a b : DateTime) : Bool :=
  decide (a.jahr < b.jahr) || (a.jahr == b.jahr &&
    (decide (a.monat < b.monat) || (a.monat == b.monat &&
      (decide (a.tag < b.tag) || (a.tag == b.tag &&
        (decide (a.stunde < b.stunde) || (a.stunde == b.stunde &&
          (decide (a.minute < b.minute) || (a.minute == b.minute &&
            decide (a.sekunde < b.sekunde))))))))))

/-- Embedding of `Termin.__lt__` (src/scraper.py lines 56-57): the tuple
`(datum, uhrzeit, name)` compared lexicographically. -/
def terminLt (a b : Termin) : Bool :=
  datumLt a.datum b.datum || (a.datum == b.datum &&
    (stringLt a.uhrzeit b.uhrzeit || (a.uhrzeit == b.uhrzeit &&
      stringLt a.name b.name)))

/-- Comparison used by `alle_termine.sort()` (src/app.py line 763):
ascending in `Termin.__lt__`, ties keeping input order. -/
def terminLe (a b : Termin) : Bool := !(terminLt b a)

/-- The final sorting step `alle_termine.sort()` of src/app.py line 763. -/
def sortiereTermine (termine : List Termin) : List Termin :=
  sortiereStabil terminLe termine

/-- The reconciliation pipeline of `main` (src/app.py lines 761-763):
deduplicate, then sort. -/
def pipeline (termine : List Termin) : List Termin :=
  sortiereTermine (entferne_duplikate termine)

/-- Definition following the words of the specification for claim C3:
lower-case the name, strip all characters that are not letters, digits or
whitespace, and collapse runs of whitespace to a single space.  The
whitespace collapse is implemented by a right fold, independently of the
scan `kollabiere` used in the embedding of the code. -/
def ohneFuehrendesLeer (cs : List Char) : List Char :=
  match cs with
  | ' ' :: t => t
  | l => l

/-- Right to left whitespace collapsing: a whitespace character
contributes one space, absorbing a space already produced to its right,
so each maximal whitespace run becomes a single space. -/
def fasseLeerraum : List Char → List Char
  | [] => []
  | c :: rest =>
    if istLeerraum c then ' ' :: ohneFuehrendesLeer (fasseLeerraum rest)
    else c :: fasseLeerraum rest

/-- Name normalization as worded in the specification (claim C3):
lower-casing, then removal of every character that is not a letter, a
digit or whitespace, then collapsing each whitespace run to one space. -/
def normalisiereSpezifikation (name : String) : String :=
  String.mk (fasseLeerraum
    ((name.toList.map pyLowerChar).filter
      (fun c => istBuchstabe c || istZiffer c || istLeerraum c)))

/-- Name normalization as the code actually behaves (amended wording of
claim C3): lower-case, trim leading and trailing whitespace, remove every
character that is neither a word character (letter, digit or underscore)
nor whitespace, collapse each whitespace run to one space. -/
def normalisiereKorrigiert (name : String) : String :=
  String.mk (fasseLeerraum
    ((pyStrip (name.toList.map pyLowerChar)).filter
      (fun c => istWortzeichen c || istLeerraum c)))

/-- The date bucket of key `k`: the input events carrying date key `k`,
in input order (this is what the grouping dictionary stores under `k`). -/
def datumsGruppe (ts : List Termin) (k : String) : List Termin :=
  ts.filter (fun t => decide (datumKey t = k))

/-- The date keys of the input in sorted order, `sorted(nach_datum)`. -/
def sortierteSchluessel (ts : List Termin) : List String :=
  sortiereStabil schluesselLe ((gruppiereNachDatum ts).map Prod.fst)

/-- The kept events of one date bucket: sort the bucket by descending
score and run the keep loop. -/
def behalteGruppe (ts : List Termin) (k : String) : List Termin :=
  behalteSchleife (sortiereStabil scoreAbsteigend (datumsGruppe ts k)) []

/-- Two events whose normalized names are neither equal nor a substring
of one another in either direction (the negation of the duplicate test,
stated symmetrically). -/
def KeinNamensDuplikat (a b : Termin) : Prop :=
  namensKollision a b = false ∧ namensKollision b a = false

/-- Two events carry the same calendar date (ignoring time of day). -/
def GleichesKalenderdatum (a b : Termin) : Prop :=
  a.datum.jahr = b.datum.jahr ∧ a.datum.monat = b.datum.monat ∧ a.datum.tag = b.datum.tag

instance (a b : Termin) : Decidable (GleichesKalenderdatum a b) := by
  unfold GleichesKalenderdatum; infer_instance

/-- Two events agree on the sorting triple `(datum, uhrzeit, name)` used
by `Termin.__lt__`. -/
def GleicheSortierung (a b : Termin) : Prop :=
  a.datum = b.datum ∧ a.uhrzeit = b.uhrzeit ∧ a.name = b.name

-- -------------------------------------------------------------------
-- Embedding of _parse_stadtarchiv_text (src/scraper.py lines 823-926)
-- -------------------------------------------------------------------

/-- The weekday alternatives of the regex fragment `_WOCHENTAGE`
(src/scraper.py line 820). -/
def _WOCHENTAGE : List String :=
  ["Montag", "Dienstag", "Mittwoch", "Donnerstag", "Freitag", "Samstag", "Sonntag"]

/-- The month-name dictionary `_MONATE` (src/scraper.py lines 389-393),
in insertion order. -/
def _MONATE : List (String × Nat) :=
  [("januar", 1), ("februar", 2), ("märz", 3), ("april", 4),
   ("mai", 5), ("juni", 6), ("juli", 7), ("august", 8),
   ("september", 9), ("oktober", 10), ("november", 11), ("dezember", 12)]

/-- Dictionary access `_MONATE.get(name, 0)`. -/
def sucheMonat : List (String × Nat) → String → Nat
  | [], _ => 0
  | (k, v) :: rest, s => if k = s then v else sucheMonat rest s

/-- Case-insensitive character comparison, as performed by regex
matching under `re.IGNORECASE`. -/
def zeichenGleichCI (a b : Char) : Bool := pyLowerChar a == pyLowerChar b

/-- Consume a literal at the front of the input (case-sensitive). -/
def leseLiteral : List Char → List Char → Option (List Char)
  | [], s => some s
  | _ :: _, [] => none
  | p :: ps, c :: cs => if p == c then leseLiteral ps cs else none

/-- Consume a literal case-insensitively, returning the matched text of
the input and the rest. -/
def leseLiteralCI : List Char → List Char → Option (List Char × List Char)
  | [], s => some ([], s)
  | _ :: _, [] => none
  | p :: ps, c :: cs =>
    if zeichenGleichCI p c then
      match leseLiteralCI ps cs with
      | some (gelesen, rest) => some (c :: gelesen, rest)
      | none => none
    else none

/-- Greedy `\s*`. -/
def leseLeerraumStern (s : List Char) : List Char := s.dropWhile istLeerraum

/-- `\s+`: at least one whitespace character, then greedy. -/
def leseLeerraumPlus : List Char → Option (List Char)
  | c :: rest => if istLeerraum c then some (rest.dropWhile istLeerraum) else none
  | [] => none

/-- Numeric value of a digit character. -/
def ziffernWert (c : Char) : Nat := c.toNat - 48

/-- Exactly `n` further digit characters, accumulating the numeric value
of the matched group (the `int(...)` conversion). -/
def leseZiffernGenau : Nat → Nat → List Char → Option (Nat × List Char)
  | 0, acc, s => some (acc, s)
  | Nat.succ k, acc, c :: cs =>
    if istZiffer c then leseZiffernGenau k (acc * 10 + ziffernWert c) cs else none
  | Nat.succ _, _, [] => none

/-- `\d+` greedy: one or more digits, with their numeric value. -/
def leseZiffernPlus : List Char → Option (Nat × List Char)
  | c :: cs =>
    if istZiffer c then
      some (((c :: cs).takeWhile istZiffer).foldl (fun acc d => acc * 10 + ziffernWert d) 0,
        (c :: cs).dropWhile istZiffer)
    else none
  | [] => none

/-- The group `(\d{1,2})`, greedy with backtracking: try the two-digit
reading first and fall back to one digit if the continuation fails. -/
def leseZiffern12 (s : List Char) (k : Nat → List Char → Option α) : Option α :=
  match s with
  | a :: b :: rest =>
    if istZiffer a then
      if istZiffer b then
        match k (ziffernWert a * 10 + ziffernWert b) rest with
        | some r => some r
        | none => k (ziffernWert a) (b :: rest)
      else k (ziffernWert a) (b :: rest)
    else none
  | [a] => if istZiffer a then k (ziffernWert a) [] else none
  | [] => none

/-- Weekday alternation, case-insensitive (`re_monatname` carries
`re.IGNORECASE`). -/
def leseWochentagCI : List String → List Char → Option (List Char)
  | [], _ => none
  | w :: ws, s =>
    match leseLiteralCI w.toList s with
    | some (_, rest) => some rest
    | none => leseWochentagCI ws s

/-- Weekday alternation, case-sensitive (`re_numerisch` has no flag). -/
def leseWochentag : List String → List Char → Option (List Char)
  | [], _ => none
  | w :: ws, s =>
    match leseLiteral w.toList s with
    | some rest => some rest
    | none => leseWochentag ws s

/-- Month-name alternation in dictionary order, case-insensitive, with
backtracking into later alternatives when the continuation fails; the
continuation receives the matched text. -/
def leseMonatsnameCI (cands : List (String × Nat)) (s : List Char)
    (k : List Char → List Char → Option α) : Option α :=
  match cands with
  | [] => none
  | (name, _) :: rest =>
    match leseLiteralCI name.toList s with
    | some (gelesen, nach) =>
      match k gelesen nach with
      | some r => some r
      | none => leseMonatsnameCI rest s k
    | none => leseMonatsnameCI rest s k

/-- The tail `(?:und\s*\d+\s*)?Uhr` of `re_monatname`: greedily try the
optional group, fall back to the bare literal. -/
def undTeilDannUhrCI (s : List Char) : Option (List Char) :=
  match
    (match leseLiteralCI "und".toList s with
     | some (_, s1) =>
       match leseZiffernPlus (leseLeerraumStern s1) with
       | some (_, s2) =>
         match leseLiteralCI "Uhr".toList (leseLeerraumStern s2) with
         | some (_, s3) => some s3
         | none => none
       | none => none
     | none => none)
  with
  | some r => some r
  | none =>
    match leseLiteralCI "Uhr".toList s with
    | some (_, s1) => some s1
    | none => none

/-- Match of `re_monatname` at the start of the input
(`(WOCHENTAGE),\s*(\d{1,2})\.\s*(MONATE)\s+(\d{4}),\s*(\d{1,2})\s*(?:und\s*\d+\s*)?Uhr`,
case-insensitive): returns `(tag, matched month text, jahr, stunde)`. -/
def treffeMonatname (s : List Char) : Option (Nat × List Char × Nat × Nat) :=
  match leseWochentagCI _WOCHENTAGE s with
  | none => none
  | some s1 =>
    match leseLiteral [','] s1 with
    | none => none
    | some s2 =>
      leseZiffern12 (leseLeerraumStern s2) fun tag s4 =>
        match leseLiteral ['.'] s4 with
        | none => none
        | some s5 =>
          leseMonatsnameCI _MONATE (leseLeerraumStern s5) fun mname s7 =>
            match leseLeerraumPlus s7 with
            | none => none
            | some s8 =>
              match leseZiffernGenau 4 0 s8 with
              | none => none
              | some (jahrN, s9) =>
                match leseLiteral [','] s9 with
                | none => none
                | some s10 =>
                  leseZiffern12 (leseLeerraumStern s10) fun stunde s12 =>
                    match undTeilDannUhrCI (leseLeerraumStern s12) with
                    | none => none
                    | some _ => some (tag, mname, jahrN, stunde)

/-- Match of `re_numerisch` at the start of the input
(`(WOCHENTAGE),\s*(\d{1,2})\.(\d{2})\.(\d{4}),\s*(\d{1,2})\s*Uhr`,
case-sensitive): returns `(tag, monat, jahr, stunde)`. -/
def treffeNumerisch (s : List Char) : Option (Nat × Nat × Nat × Nat) :=
  match leseWochentag _WOCHENTAGE s with
  | none => none
  | some s1 =>
    match leseLiteral [','] s1 with
    | none => none
    | some s2 =>
      leseZiffern12 (leseLeerraumStern s2) fun tag s4 =>
        match leseLiteral ['.'] s4 with
        | none => none
        | some s5 =>
          match leseZiffernGenau 2 0 s5 with
          | none => none
          | some (monatN, s6) =>
            match leseLiteral ['.'] s6 with
            | none => none
            | some s7 =>
              match leseZiffernGenau 4 0 s7 with
              | none => none
              | some (jahrN, s8) =>
                match leseLiteral [','] s8 with
                | none => none
                | some s9 =>
                  leseZiffern12 (leseLeerraumStern s9) fun stunde s11 =>
                    match leseLiteral "Uhr".toList (leseLeerraumStern s11) with
                    | none => none
                    | some _ => some (tag, monatN, jahrN, stunde)

/-- Match of `re_zeitraum` at the start of the input
(`(\d{1,2})\.\s*(MONATE)\s+bis\s+\d{1,2}\.\s*(?:MONATE)\s+(\d{4})`,
case-insensitive): returns `(tag, matched month text, jahr)`. -/
def treffeZeitraum (s : List Char) : Option (Nat × List Char × Nat) :=
  leseZiffern12 s fun tag s1 =>
    match leseLiteral ['.'] s1 with
    | none => none
    | some s2 =>
      leseMonatsnameCI _MONATE (leseLeerraumStern s2) fun mname s4 =>
        match leseLeerraumPlus s4 with
        | none => none
        | some s5 =>
          match leseLiteralCI "bis".toList s5 with
          | none => none
          | some (_, s6) =>
            match leseLeerraumPlus s6 with
            | none => none
            | some s7 =>
              leseZiffern12 s7 fun _ s8 =>
                match leseLiteral ['.'] s8 with
                | none => none
                | some s9 =>
                  leseMonatsnameCI _MONATE (leseLeerraumStern s9) fun _ s11 =>
                    match leseLeerraumPlus s11 with
                    | none => none
                    | some s12 =>
                      match leseZiffernGenau 4 0 s12 with
                      | none => none
                      | some (jahrN, _) => some (tag, mname, jahrN)

/-- `re.search`: try the matcher at every start position, leftmost match
first (also at the end-of-string position). -/
def sucheAb (treffer : List Char → Option α) : List Char → Option α
  | [] => treffer []
  | c :: t =>
    match treffer (c :: t) with
    | some r => some r
    | none => sucheAb treffer t

/-- The helper `_ist_datumzeile` (src/scraper.py lines 846-847). -/
def _ist_datumzeile (line : List Char) : Bool :=
  (sucheAb treffeMonatname line).isSome ||
  (sucheAb treffeNumerisch line).isSome ||
  (sucheAb treffeZeitraum line).isSome

/-- Month lengths as enforced by the Python `datetime` constructor. -/
def tageImMonat (jahr monat : Nat) : Nat :=
  if monat = 1 ∨ monat = 3 ∨ monat = 5 ∨ monat = 7 ∨ monat = 8 ∨ monat = 10 ∨ monat = 12 then 31
  else if monat = 4 ∨ monat = 6 ∨ monat = 9 ∨ monat = 11 then 30
  else if monat = 2 then
    if (jahr % 4 = 0 ∧ jahr % 100 ≠ 0) ∨ jahr % 400 = 0 then 29 else 28
  else 0

/-- Model of `datetime(jahr, monat, tag, stunde, 0)`: `some` when the
constructor succeeds and `none` when it raises `ValueError`. -/
def macheDatum (jahr monat tag stunde : Nat) : Option DateTime :=
  if 1 ≤ jahr ∧ jahr ≤ 9999 ∧ 1 ≤ monat ∧ monat ≤ 12 ∧ 1 ≤ tag ∧
      tag ≤ tageImMonat jahr monat ∧ stunde ≤ 23 then
    some ⟨jahr, monat, tag, stunde, 0, 0⟩
  else none

/-- Embedding of `_im_monat` (src/scraper.py lines 68-70). -/
def _im_monat (datum : DateTime) (jahr monat : Nat) : Bool :=
  decide (datum.jahr = jahr) && decide (datum.monat = monat)

/-- The date-extraction block of the loop body (src/scraper.py lines
854-884): try `re_monatname`, then `re_numerisch`, then `re_zeitraum`;
a match whose `datetime` construction raises falls through to the next
pattern.  Returns the datum together with the `uhrzeit` label. -/
def zeileDatum (line : List Char) : Option (DateTime × String) :=
  match
    (match sucheAb treffeMonatname line with
     | some (tag, mname, jahrN, stunde) =>
       match macheDatum jahrN (sucheMonat _MONATE (String.mk (mname.map pyLowerChar))) tag stunde with
       | some d => some (d, String.mk (zweistellig stunde) ++ ":00 Uhr")
       | none => none
     | none => none)
  with
  | some r => some r
  | none =>
    match
      (match sucheAb treffeNumerisch line with
       | some (tag, monatN, jahrN, stunde) =>
         match macheDatum jahrN monatN tag stunde with
         | some d => some (d, String.mk (zweistellig stunde) ++ ":00 Uhr")
         | none => none
       | none => none)
    with
    | some r => some r
    | none =>
      match sucheAb treffeZeitraum line with
      | some (tag, mname, jahrN) =>
        match macheDatum jahrN (sucheMonat _MONATE (String.mk (mname.map pyLowerChar))) tag 0 with
        | some d => some (d, "siehe Website")
        | none => none
      | none => none

/-- The `startswith` filter of the title loop (src/scraper.py line 898). -/
def beginntMitKopfzeile (line : List Char) : Bool :=
  "Institut für".toList.isPrefixOf line ||
  "Exkursion/".toList.isPrefixOf line ||
  "Sonderausstellung".toList.isPrefixOf line ||
  "Start am".toList.isPrefixOf line

/-- The title-collection loop (src/scraper.py lines 894-903): take up to
three lines after the date line, stopping at the next date line, at known
section headers, or at long body text after the first part; returns the
collected parts and the remaining lines (the suffix at index `j`). -/
def sammleTitel : List (List Char) → List (List Char) → List (List Char) × List (List Char)
  | [], parts => (parts.reverse, [])
  | zeile :: rest, parts =>
    if parts.length < 3 then
      if _ist_datumzeile zeile then (parts.reverse, zeile :: rest)
      else if beginntMitKopfzeile zeile then (parts.reverse, zeile :: rest)
      else if zeile.length ≥ 50 ∧ parts.length > 0 then (parts.reverse, zeile :: rest)
      else sammleTitel rest (zeile :: parts)
    else (parts.reverse, zeile :: rest)

/-- Model of `re.sub(r'(\w)- (?!und |oder |bzw )(\w)', r'\1\2', name)`
(src/scraper.py line 907): a left to right scan joining hyphenated line
breaks inside words, except before the connectives. -/
def repariereBindestrichLauf : Nat → List Char → List Char
  | 0, s => s
  | Nat.succ _, [] => []
  | Nat.succ fuel, a :: rest =>
    match rest with
    | '-' :: ' ' :: b :: rest2 =>
      if istWortzeichen a && istWortzeichen b &&
          !("und ".toList.isPrefixOf (b :: rest2) ||
            "oder ".toList.isPrefixOf (b :: rest2) ||
            "bzw ".toList.isPrefixOf (b :: rest2)) then
        a :: b :: repariereBindestrichLauf fuel rest2
      else a :: repariereBindestrichLauf fuel rest
    | _ => a :: repariereBindestrichLauf fuel rest

/-- The substitution applied to a whole name; every scan step consumes at
least one character, so `length` fuel is enough. -/
def repariereBindestrich (s : List Char) : List Char :=
  repariereBindestrichLauf s.length s

/-- The join `' '.join(title_parts)` followed by `.strip()`. -/
def verbindeTitel (parts : List (List Char)) : List Char :=
  pyStrip (List.intercalate [' '] parts)

/-- The key `f"{name}|{datum.strftime('%Y-%m-%d')}"` of the local
duplicate set. -/
def stadtarchivSchluessel (name : List Char) (d : DateTime) : String :=
  String.mk (name ++ '|' :: (datumsSchluessel d).toList)

/-- Split on newline characters, as `text.split('\n')`. -/
def teileZeilen : List Char → List (List Char)
  | [] => [[]]
  | c :: rest =>
    if c = '\n' then [] :: teileZeilen rest
    else
      match teileZeilen rest with
      | [] => [[c]]
      | zeile :: mehr => (c :: zeile) :: mehr

/-- The scanning loop of `_parse_stadtarchiv_text` (src/scraper.py lines
850-925).  The index `i` is represented by the current suffix of the line
list; the fuel bounds the number of iterations, and since every
iteration advances by at least one line, `lines.length` fuel is enough. -/
def stadtarchivSchleife (jahr monat : Nat) (pdf_url : String) :
    Nat → List (List Char) → List String → List Termin
  | 0, _, _ => []
  | Nat.succ _, [], _ => []
  | Nat.succ fuel, line :: rest, gesehen =>
    match zeileDatum line with
    | none => stadtarchivSchleife jahr monat pdf_url fuel rest gesehen
    | some (datum, uhrzeit) =>
      if _im_monat datum jahr monat then
        match sammleTitel rest [] with
        | (parts, rest2) =>
          let name := repariereBindestrich (verbindeTitel parts)
          if name = [] then stadtarchivSchleife jahr monat pdf_url fuel rest gesehen
          else
            let key := stadtarchivSchluessel name datum
            if key ∈ gesehen then stadtarchivSchleife jahr monat pdf_url fuel rest gesehen
            else
              { name := String.mk (name.take 150), datum := datum, uhrzeit := uhrzeit,
                ort := "Institut für Stadtgeschichte", link := pdf_url,
                beschreibung := "", quelle := "stadtarchiv",
                kategorie := "Geschichte" } ::
                stadtarchivSchleife jahr monat pdf_url fuel rest2 (key :: gesehen)
      else stadtarchivSchleife jahr monat pdf_url fuel rest gesehen

/-- Embedding of `_parse_stadtarchiv_text` (src/scraper.py lines
823-926): split the text into stripped non-empty lines, then run the
scanning loop. -/
def _parse_stadtarchiv_text (text : String) (jahr monat : Nat) (pdf_url : String) :
    List Termin :=
  let lines := ((teileZeilen text.toList).map pyStrip).filter (fun l => !(l.isEmpty))
  stadtarchivSchleife jahr monat pdf_url lines.length lines []

-- ===================================================================
-- Theorems
-- ===================================================================

theorem zeichen_eq_of_toNat_eq {a b : Char} (h : a.toNat = b.toNat) : a = b :=
  Char.eq_of_val_eq (UInt32.eq_of_toBitVec_eq (BitVec.eq_of_toNat_eq h))

/-- C2 (counterexample): the two names of the claim do not normalize to
the same comparison key, and the deduplication keeps both events: the
hyphen of `Nacht-Café!!` is deleted without leaving a space, so the keys
`nachtcafé` and `nacht café` differ and neither contains the other. -/
theorem nachtcafe_gegenbeispiel_c2 :
    _normalisiere "Nacht-Café!!" ≠ _normalisiere "nacht café" ∧
    entferne_duplikate
      [{ name := "Nacht-Café!!", datum := ⟨2025, 12, 6, 0, 0, 0⟩,
         uhrzeit := "", ort := "", link := "" },
       { name := "nacht café", datum := ⟨2025, 12, 6, 0, 0, 0⟩,
         uhrzeit := "", ort := "", link := "" }] =
      [{ name := "Nacht-Café!!", datum := ⟨2025, 12, 6, 0, 0, 0⟩,
         uhrzeit := "", ort := "", link := "" },
       { name := "nacht café", datum := ⟨2025, 12, 6, 0, 0, 0⟩,
         uhrzeit := "", ort := "", link := "" }] := by decide

/-- C2 (amended): `Nacht-Café!!` normalizes to `nachtcafé` while
`nacht café` normalizes to `nacht café`; the keys are distinct, neither
is a substring of the other, and two events bearing these names on the
same calendar date are both retained by `entferne_duplikate`. -/
theorem nachtcafe_verhalten_c2 :
    _normalisiere "Nacht-Café!!" = "nachtcafé" ∧
    _normalisiere "nacht café" = "nacht café" ∧
    istTeilzeichenkette "nachtcafé".toList "nacht café".toList = false ∧
    istTeilzeichenkette "nacht café".toList "nachtcafé".toList = false ∧
    entferne_duplikate
      [{ name := "Nacht-Café!!", datum := ⟨2025, 12, 6, 0, 0, 0⟩,
         uhrzeit := "", ort := "", link := "" },
       { name := "nacht café", datum := ⟨2025, 12, 6, 0, 0, 0⟩,
         uhrzeit := "", ort := "", link := "" }] =
      [{ name := "Nacht-Café!!", datum := ⟨2025, 12, 6, 0, 0, 0⟩,
         uhrzeit := "", ort := "", link := "" },
       { name := "nacht café", datum := ⟨2025, 12, 6, 0, 0, 0⟩,
         uhrzeit := "", ort := "", link := "" }] := by decide

/-- C3 (counterexample): `_normalisiere` is not the function described in
the specification: it keeps the underscore (the regex class `\w` contains
it), and it trims leading whitespace (the `.strip()` call), while the
described function removes the underscore and keeps one leading space. -/
theorem normalisiere_gegenbeispiel_c3 :
    _normalisiere "a_b" ≠ normalisiereSpezifikation "a_b" ∧
    _normalisiere " a" ≠ normalisiereSpezifikation " a" := by decide

example : _normalisiere "a_b" = "a_b" ∧ normalisiereSpezifikation "a_b" = "ab" := by decide

example : _normalisiere " a" = "a" ∧ normalisiereSpezifikation " a" = " a" := by decide

theorem subEntferne_eq_filter (cs : List Char) :
    subEntferne cs = cs.filter (fun c => istWortzeichen c || istLeerraum c) := by
  induction cs with
  | nil => rfl
  | cons c rest ih =>
    cases h : (istWortzeichen c || istLeerraum c) <;> simp [subEntferne, h, ih]

theorem ohne_cons_ne {c : Char} (l : List Char) (hc : c ≠ ' ') :
    ohneFuehrendesLeer (c :: l) = c :: l := by
  unfold ohneFuehrendesLeer
  split
  next heq =>
    injection heq with h1 h2
    exact absurd h1 hc
  next => rfl

theorem kollabiere_eq_fasse (cs : List Char) :
    kollabiere false cs = fasseLeerraum cs ∧
    kollabiere true cs = ohneFuehrendesLeer (fasseLeerraum cs) := by
  induction cs with
  | nil => exact ⟨rfl, rfl⟩
  | cons c rest ih =>
    obtain ⟨ihf, iht⟩ := ih
    cases h : istLeerraum c with
    | true =>
      refine ⟨?_, ?_⟩
      · simp [kollabiere, fasseLeerraum, h, iht]
      · simp [kollabiere, fasseLeerraum, h, iht, ohneFuehrendesLeer]
    | false =>
      have hc : c ≠ ' ' := fun hceq => by subst hceq; simp [istLeerraum] at h
      refine ⟨?_, ?_⟩
      · simp [kollabiere, fasseLeerraum, h, ihf]
      · simp [kollabiere, fasseLeerraum, h, ihf, ohne_cons_ne _ hc]

/-- C3 (amended): the function `_normalisiere` equals the corrected
description: lower-case, trim leading and trailing whitespace, remove
every character that is neither a word character (letter, digit or
underscore) nor whitespace, and collapse each whitespace run to a single
space. -/
theorem normalisiere_korrigiert_c3 (name : String) :
    _normalisiere name = normalisiereKorrigiert name := by
  unfold _normalisiere normalisiereKorrigiert
  rw [subEntferne_eq_filter, (kollabiere_eq_fasse _).1]

-- -------------------------------------------------------------------
-- Properties of the stable insertion sort
-- -------------------------------------------------------------------

theorem mem_fuegeSortiertEin (le : α → α → Bool) (a x : α) (l : List α) :
    x ∈ fuegeSortiertEin le a l ↔ x = a ∨ x ∈ l := by
  induction l with
  | nil => simp [fuegeSortiertEin]
  | cons b bs ih =>
    by_cases h : le a b = true
    · simp [fuegeSortiertEin, h]
    · simp only [fuegeSortiertEin, h, if_neg, Bool.not_eq_true, if_false, List.mem_cons, ih]
      tauto

theorem fuegeSortiertEin_perm (le : α → α → Bool) (a : α) (l : List α) :
    List.Perm (fuegeSortiertEin le a l) (a :: l) := by
  induction l with
  | nil => simp [fuegeSortiertEin]
  | cons b bs ih =>
    by_cases h : le a b = true
    · simp [fuegeSortiertEin, h]
    · simp only [fuegeSortiertEin, h, if_false]
      exact (ih.cons b).trans (List.Perm.swap a b bs)

theorem sortiereStabil_perm (le : α → α → Bool) (l : List α) :
    List.Perm (sortiereStabil le l) l := by
  induction l with
  | nil => simp [sortiereStabil]
  | cons a as ih =>
    exact (fuegeSortiertEin_perm le a (sortiereStabil le as)).trans (ih.cons a)

theorem pairwise_fuegeSortiertEin (le : α → α → Bool)
    (htrans : ∀ a b c, le a b = true → le b c = true → le a c = true)
    (htot : ∀ a b, le a b = true ∨ le b a = true)
    (a : α) (l : List α) (hl : l.Pairwise (fun x y => le x y = true)) :
    (fuegeSortiertEin le a l).Pairwise (fun x y => le x y = true) := by
  induction l with
  | nil => simp [fuegeSortiertEin]
  | cons b bs ih =>
    rw [List.pairwise_cons] at hl
    obtain ⟨hb, hbs⟩ := hl
    by_cases h : le a b = true
    · simp only [fuegeSortiertEin, if_pos h]
      rw [List.pairwise_cons]
      refine ⟨?_, List.pairwise_cons.mpr ⟨hb, hbs⟩⟩
      intro x hx
      rcases List.mem_cons.mp hx with rfl | hx
      · exact h
      · exact htrans a b x h (hb x hx)
    · simp only [fuegeSortiertEin, if_neg h]
      rw [List.pairwise_cons]
      constructor
      · intro x hx
        rcases (mem_fuegeSortiertEin le a x bs).mp hx with rfl | hx
        · rcases htot x b with h1 | h1
          · exact absurd h1 h
          · exact h1
        · exact hb x hx
      · exact ih hbs

theorem pairwise_sortiereStabil (le : α → α → Bool)
    (htrans : ∀ a b c, le a b = true → le b c = true → le a c = true)
    (htot : ∀ a b, le a b = true ∨ le b a = true) (l : List α) :
    (sortiereStabil le l).Pairwise (fun x y => le x y = true) := by
  induction l with
  | nil => simp [sortiereStabil]
  | cons a as ih => exact pairwise_fuegeSortiertEin le htrans htot a _ ih

theorem sortiereStabil_eq_self (le : α → α → Bool) (l : List α)
    (hl : l.Pairwise (fun x y => le x y = true)) :
    sortiereStabil le l = l := by
  induction l with
  | nil => rfl
  | cons a as ih =>
    rw [List.pairwise_cons] at hl
    obtain ⟨ha, has⟩ := hl
    show fuegeSortiertEin le a (sortiereStabil le as) = a :: as
    rw [ih has]
    cases as with
    | nil => rfl
    | cons b bs =>
      show (if le a b = true then a :: b :: bs else b :: fuegeSortiertEin le a bs) = _
      rw [if_pos (ha b (List.mem_cons_self b bs))]

theorem sublist_fuegeSortiertEin (le : α → α → Bool) (a : α) (l : List α) :
    l.Sublist (fuegeSortiertEin le a l) := by
  induction l with
  | nil => exact List.nil_sublist _
  | cons b bs ih =>
    by_cases h : le a b = true
    · simp only [fuegeSortiertEin, if_pos h]
      exact (List.Sublist.refl (b :: bs)).cons a
    · simp only [fuegeSortiertEin, if_neg h]
      exact ih.cons₂ b

theorem pair_sublist_fuegeSortiertEin (le : α → α → Bool) (a y : α) (l : List α)
    (hy : y ∈ l) (hle : le a y = true) :
    [a, y].Sublist (fuegeSortiertEin le a l) := by
  induction l with
  | nil => cases hy
  | cons b bs ih =>
    by_cases h : le a b = true
    · simp only [fuegeSortiertEin, if_pos h]
      exact (List.singleton_sublist.mpr hy).cons₂ a
    · simp only [fuegeSortiertEin, if_neg h]
      rcases List.mem_cons.mp hy with rfl | hy
      · exact absurd hle h
      · exact (ih hy).cons b

theorem pair_sublist_sortiereStabil (le : α → α → Bool) {x y : α} {l : List α}
    (h : [x, y].Sublist l) (hxy : le x y = true) :
    [x, y].Sublist (sortiereStabil le l) := by
  induction l with
  | nil => cases h
  | cons a as ih =>
    cases h with
    | cons _ h2 =>
      exact (ih h2).trans (sublist_fuegeSortiertEin le a (sortiereStabil le as))
    | cons₂ _ h2 =>
      have hy : y ∈ sortiereStabil le as :=
        ((sortiereStabil_perm le as).mem_iff).mpr (List.singleton_sublist.mp h2)
      exact pair_sublist_fuegeSortiertEin le x y _ hy hxy

-- -------------------------------------------------------------------
-- Properties of the keep loop
-- -------------------------------------------------------------------

theorem istDuplikat_eq_true {k : Termin} {acc : List Termin} :
    istDuplikat k acc = true ↔ ∃ v ∈ acc, namensKollision k v = true := by
  simp [istDuplikat, List.any_eq_true]

theorem istDuplikat_eq_false {k : Termin} {acc : List Termin} :
    istDuplikat k acc = false ↔ ∀ v ∈ acc, namensKollision k v = false := by
  simp [istDuplikat, List.any_eq_false]

theorem behalteSchleife_append_acc (g acc : List Termin) :
    ∃ h, behalteSchleife g acc = acc ++ h ∧ h.Sublist g := by
  induction g generalizing acc with
  | nil => exact ⟨[], by simp [behalteSchleife], List.nil_sublist _⟩
  | cons k rest ih =>
    by_cases hd : istDuplikat k acc = true
    · obtain ⟨h, heq, hsub⟩ := ih acc
      exact ⟨h, by simp [behalteSchleife, hd, heq], hsub.cons k⟩
    · obtain ⟨h, heq, hsub⟩ := ih (acc ++ [k])
      refine ⟨k :: h, ?_, hsub.cons₂ k⟩
      simp only [behalteSchleife, if_neg hd, heq, List.append_assoc, List.singleton_append]

theorem mem_acc_behalteSchleife {g acc : List Termin} {x : Termin} (hx : x ∈ acc) :
    x ∈ behalteSchleife g acc := by
  obtain ⟨h, heq, _⟩ := behalteSchleife_append_acc g acc
  rw [heq]
  exact List.mem_append_left h hx

theorem mem_of_mem_behalteSchleife {g acc : List Termin} {x : Termin}
    (hx : x ∈ behalteSchleife g acc) : x ∈ acc ∨ x ∈ g := by
  obtain ⟨h, heq, hsub⟩ := behalteSchleife_append_acc g acc
  rw [heq] at hx
  rcases List.mem_append.mp hx with h1 | h1
  · exact Or.inl h1
  · exact Or.inr (hsub.subset h1)

theorem behalteSchleife_sublist (g : List Termin) :
    (behalteSchleife g []).Sublist g := by
  obtain ⟨h, heq, hsub⟩ := behalteSchleife_append_acc g []
  rw [heq, List.nil_append]
  exact hsub

theorem pairwise_behalteSchleife (g acc : List Termin)
    (hacc : acc.Pairwise (fun a b => namensKollision b a = false)) :
    (behalteSchleife g acc).Pairwise (fun a b => namensKollision b a = false) := by
  induction g generalizing acc with
  | nil => exact hacc
  | cons k rest ih =>
    by_cases hd : istDuplikat k acc = true
    · simp only [behalteSchleife, if_pos hd]
      exact ih acc hacc
    · simp only [behalteSchleife, if_neg hd]
      refine ih (acc ++ [k]) ?_
      rw [List.pairwise_append]
      refine ⟨hacc, List.pairwise_singleton _ _, ?_⟩
      intro a ha b hb
      rcases List.mem_singleton.mp hb with rfl
      exact (istDuplikat_eq_false.mp (Bool.not_eq_true _ ▸ hd)) a ha

theorem behalteSchleife_eq_append (g acc : List Termin)
    (hg : g.Pairwise (fun a b => namensKollision b a = false))
    (hcross : ∀ k ∈ g, ∀ v ∈ acc, namensKollision k v = false) :
    behalteSchleife g acc = acc ++ g := by
  induction g generalizing acc with
  | nil => simp [behalteSchleife]
  | cons k rest ih =>
    rw [List.pairwise_cons] at hg
    obtain ⟨hk, hrest⟩ := hg
    have hd : istDuplikat k acc = false :=
      istDuplikat_eq_false.mpr (hcross k (List.mem_cons_self k rest))
    simp only [behalteSchleife, hd, if_neg (by simp [hd] : ¬ istDuplikat k acc = true)]
    rw [ih (acc ++ [k]) hrest ?_]
    · simp
    · intro x hx v hv
      rcases List.mem_append.mp hv with h1 | h1
      · exact hcross x (List.mem_cons_of_mem k hx) v h1
      · rcases List.mem_singleton.mp h1 with rfl
        exact hk x hx

theorem behalteSchleife_verworfen {g acc : List Termin} {k : Termin}
    (hk : k ∈ g) (hnot : k ∉ behalteSchleife g acc) :
    ∃ v ∈ behalteSchleife g acc, namensKollision k v = true ∧
      (v ∈ acc ∨ [v, k].Sublist g) := by
  induction g generalizing acc with
  | nil => cases hk
  | cons c rest ih =>
    by_cases hd : istDuplikat c acc = true
    · have hres : behalteSchleife (c :: rest) acc = behalteSchleife rest acc := by
        simp [behalteSchleife, hd]
      rw [hres] at hnot ⊢
      rcases List.mem_cons.mp hk with rfl | hk2
      · obtain ⟨v, hv, hkoll⟩ := istDuplikat_eq_true.mp hd
        exact ⟨v, mem_acc_behalteSchleife hv, hkoll, Or.inl hv⟩
      · obtain ⟨v, hv, hkoll, hvor⟩ := ih hk2 hnot
        refine ⟨v, hv, hkoll, ?_⟩
        rcases hvor with h1 | h1
        · exact Or.inl h1
        · exact Or.inr (h1.cons c)
    · have hres : behalteSchleife (c :: rest) acc = behalteSchleife rest (acc ++ [c]) := by
        simp [behalteSchleife, hd]
      rw [hres] at hnot ⊢
      rcases List.mem_cons.mp hk with rfl | hk2
      · exact absurd (mem_acc_behalteSchleife (by simp)) hnot
      · obtain ⟨v, hv, hkoll, hvor⟩ := ih hk2 hnot
        refine ⟨v, hv, hkoll, ?_⟩
        rcases hvor with h1 | h1
        · rcases List.mem_append.mp h1 with h2 | h2
          · exact Or.inl h2
          · rcases List.mem_singleton.mp h2 with rfl
            exact Or.inr ((List.singleton_sublist.mpr hk2).cons₂ v)
        · exact Or.inr (h1.cons c)

-- -------------------------------------------------------------------
-- Properties of the grouping dictionary
-- -------------------------------------------------------------------

theorem holeGruppe_dictEinfuegen (d : List (String × List Termin)) (key k : String) (t : Termin) :
    holeGruppe (dictEinfuegen d key t) k =
      if k = key then holeGruppe d k ++ [t] else holeGruppe d k := by
  induction d with
  | nil =>
    by_cases h : k = key
    · subst h; simp [dictEinfuegen, holeGruppe]
    · have h2 : ¬ key = k := fun heq => h heq.symm
      simp [dictEinfuegen, holeGruppe, h, h2]
  | cons p rest ih =>
    obtain ⟨k1, g⟩ := p
    by_cases h1 : k1 = key
    · subst h1
      simp only [dictEinfuegen, if_pos rfl]
      by_cases h2 : k1 = k
      · subst h2
        simp [holeGruppe]
      · have h2a : ¬ k = k1 := fun heq => h2 heq.symm
        simp [holeGruppe, h2, h2a]
    · simp only [dictEinfuegen, if_neg h1]
      by_cases h2 : k1 = k
      · subst h2
        have h1a : ¬ k1 = key := h1
        simp [holeGruppe, h1a]
      · simp only [holeGruppe, if_neg h2]
        exact ih

theorem map_fst_dictEinfuegen (d : List (String × List Termin)) (key : String) (t : Termin) :
    (dictEinfuegen d key t).map Prod.fst =
      if key ∈ d.map Prod.fst then d.map Prod.fst else d.map Prod.fst ++ [key] := by
  induction d with
  | nil => simp [dictEinfuegen]
  | cons p rest ih =>
    obtain ⟨k1, g⟩ := p
    by_cases h1 : k1 = key
    · subst h1; simp [dictEinfuegen]
    · have h1a : ¬ key = k1 := fun heq => h1 heq.symm
      simp only [dictEinfuegen, if_neg h1, List.map_cons, List.mem_cons, ih]
      by_cases h2 : key ∈ rest.map Prod.fst
      · rw [if_pos h2, if_pos (Or.inr h2)]
      · rw [if_neg h2, if_neg (by rintro (h3 | h3); exacts [h1a h3, h2 h3])]
        simp

theorem holeGruppe_gruppiere_foldl (ts : List Termin) (d : List (String × List Termin))
    (k : String) :
    holeGruppe (ts.foldl (fun d t => dictEinfuegen d (datumKey t) t) d) k =
      holeGruppe d k ++ ts.filter (fun t => decide (datumKey t = k)) := by
  induction ts generalizing d with
  | nil => simp
  | cons t ts ih =>
    simp only [List.foldl_cons, List.filter_cons]
    rw [ih]
    by_cases h : datumKey t = k
    · rw [holeGruppe_dictEinfuegen, if_pos h.symm]
      simp [h, List.append_assoc]
    · rw [holeGruppe_dictEinfuegen, if_neg (fun heq => h heq.symm)]
      simp [h]

theorem holeGruppe_gruppiere (ts : List Termin) (k : String) :
    holeGruppe (gruppiereNachDatum ts) k =
      ts.filter (fun t => decide (datumKey t = k)) := by
  have := holeGruppe_gruppiere_foldl ts [] k
  simpa [gruppiereNachDatum, holeGruppe] using this

theorem mem_map_fst_gruppiere_foldl (ts : List Termin) (d : List (String × List Termin))
    (k : String) :
    k ∈ (ts.foldl (fun d t => dictEinfuegen d (datumKey t) t) d).map Prod.fst ↔
      k ∈ d.map Prod.fst ∨ ∃ t ∈ ts, datumKey t = k := by
  induction ts generalizing d with
  | nil => simp
  | cons t ts ih =>
    simp only [List.foldl_cons]
    rw [ih, map_fst_dictEinfuegen]
    by_cases h : datumKey t ∈ d.map Prod.fst
    · rw [if_pos h]
      constructor
      · rintro (h1 | h1)
        · exact Or.inl h1
        · exact Or.inr ⟨h1.choose, List.mem_cons_of_mem t h1.choose_spec.1, h1.choose_spec.2⟩
      · rintro (h1 | ⟨u, hu, hk⟩)
        · exact Or.inl h1
        · rcases List.mem_cons.mp hu with rfl | hu2
          · exact Or.inl (hk ▸ h)
          · exact Or.inr ⟨u, hu2, hk⟩
    · rw [if_neg h]
      simp only [List.mem_append, List.mem_singleton]
      constructor
      · rintro ((h1 | h1) | h1)
        · exact Or.inl h1
        · exact Or.inr ⟨t, List.mem_cons_self t ts, h1.symm⟩
        · exact Or.inr ⟨h1.choose, List.mem_cons_of_mem t h1.choose_spec.1, h1.choose_spec.2⟩
      · rintro (h1 | ⟨u, hu, hk⟩)
        · exact Or.inl (Or.inl h1)
        · rcases List.mem_cons.mp hu with rfl | hu2
          · exact Or.inl (Or.inr hk.symm)
          · exact Or.inr ⟨u, hu2, hk⟩

theorem mem_map_fst_gruppiere (ts : List Termin) (k : String) :
    k ∈ (gruppiereNachDatum ts).map Prod.fst ↔ ∃ t ∈ ts, datumKey t = k := by
  have := mem_map_fst_gruppiere_foldl ts [] k
  simpa [gruppiereNachDatum] using this

theorem nodup_map_fst_gruppiere_foldl (ts : List Termin) (d : List (String × List Termin))
    (hd : (d.map Prod.fst).Nodup) :
    ((ts.foldl (fun d t => dictEinfuegen d (datumKey t) t) d).map Prod.fst).Nodup := by
  induction ts generalizing d with
  | nil => exact hd
  | cons t ts ih =>
    simp only [List.foldl_cons]
    refine ih _ ?_
    rw [map_fst_dictEinfuegen]
    by_cases h : datumKey t ∈ d.map Prod.fst
    · rw [if_pos h]; exact hd
    · rw [if_neg h]
      rw [List.nodup_append]
      refine ⟨hd, List.nodup_singleton _, ?_⟩
      intro a ha hb
      rw [List.mem_singleton] at hb
      subst hb
      exact h ha

theorem nodup_map_fst_gruppiere (ts : List Termin) :
    ((gruppiereNachDatum ts).map Prod.fst).Nodup :=
  nodup_map_fst_gruppiere_foldl ts [] (by simp)

-- -------------------------------------------------------------------
-- Characterization of entferne_duplikate
-- -------------------------------------------------------------------

theorem entferne_duplikate_eq (ts : List Termin) :
    entferne_duplikate ts = (sortierteSchluessel ts).flatMap (behalteGruppe ts) := by
  unfold entferne_duplikate sortierteSchluessel behalteGruppe datumsGruppe
  simp only [holeGruppe_gruppiere]

theorem mem_sortierteSchluessel {ts : List Termin} {k : String} :
    k ∈ sortierteSchluessel ts ↔ ∃ t ∈ ts, datumKey t = k := by
  unfold sortierteSchluessel
  rw [(sortiereStabil_perm schluesselLe _).mem_iff]
  exact mem_map_fst_gruppiere ts k

theorem nodup_sortierteSchluessel (ts : List Termin) :
    (sortierteSchluessel ts).Nodup :=
  ((sortiereStabil_perm schluesselLe _).nodup_iff).mpr (nodup_map_fst_gruppiere ts)

theorem mem_behalteGruppe {ts : List Termin} {k : String} {x : Termin}
    (hx : x ∈ behalteGruppe ts k) : x ∈ ts ∧ datumKey x = k := by
  rcases mem_of_mem_behalteSchleife hx with h | h
  · cases h
  · have h2 : x ∈ datumsGruppe ts k := (sortiereStabil_perm scoreAbsteigend _).mem_iff.mp h
    have h3 := List.mem_filter.mp h2
    exact ⟨h3.1, of_decide_eq_true h3.2⟩

theorem mem_entferne_duplikate_iff {ts : List Termin} {x : Termin} :
    x ∈ entferne_duplikate ts ↔ ∃ k ∈ sortierteSchluessel ts, x ∈ behalteGruppe ts k := by
  rw [entferne_duplikate_eq]
  exact List.mem_flatMap

/-- C9: the reconciler only filters: every event in the output of
`entferne_duplikate` is one of the input events, with every field
unchanged (events are values of the `Termin` record, so membership is
field-for-field equality); the output is a fresh list built by the loop,
never an in-place edit of the input. -/
theorem entferne_duplikate_teilmenge_c9 :
    ∀ (xs : List Termin), ∀ t ∈ entferne_duplikate xs, t ∈ xs := by
  intro xs t ht
  obtain ⟨k, _, hk⟩ := mem_entferne_duplikate_iff.mp ht
  exact (mem_behalteGruppe hk).1

/-- C9 witness: the theorem applied to a concrete input. -/
theorem entferne_duplikate_teilmenge_c9_witness :
    ({ name := "Jazz Night", datum := ⟨2025, 12, 6, 0, 0, 0⟩, uhrzeit := "",
       ort := "", link := "" } : Termin) ∈
      [({ name := "Jazz Night", datum := ⟨2025, 12, 6, 0, 0, 0⟩, uhrzeit := "",
          ort := "", link := "" } : Termin)] :=
  entferne_duplikate_teilmenge_c9 _ _ (by decide)

-- -------------------------------------------------------------------
-- The date key determines the calendar date (for valid dates)
-- -------------------------------------------------------------------

theorem ziffernZeichen_mod_inj {x y : Nat} (h : ziffernZeichen x = ziffernZeichen y) :
    x % 10 = y % 10 := by
  unfold ziffernZeichen at h
  have hx : x % 10 < 10 := Nat.mod_lt _ (by omega)
  have hy : y % 10 < 10 := Nat.mod_lt _ (by omega)
  generalize hm : x % 10 = m at h hx ⊢
  generalize hn : y % 10 = n at h hy ⊢
  interval_cases m <;> interval_cases n <;> revert h <;> decide

theorem datumsSchluessel_inj {a b : DateTime} (ha : gueltigesDatum a) (hb : gueltigesDatum b)
    (h : datumsSchluessel a = datumsSchluessel b) :
    a.jahr = b.jahr ∧ a.monat = b.monat ∧ a.tag = b.tag := by
  obtain ⟨ha1, ha2, ha3, ha4, ha5, ha6, -⟩ := ha
  obtain ⟨hb1, hb2, hb3, hb4, hb5, hb6, -⟩ := hb
  unfold datumsSchluessel vierstellig zweistellig at h
  have h2 := congrArg String.data h
  simp only [List.cons_append, List.nil_append, List.cons.injEq, and_true] at h2
  obtain ⟨e1, e2, e3, e4, -, e5, e6, -, e7, e8⟩ := h2
  have d1 := ziffernZeichen_mod_inj e1
  have d2 := ziffernZeichen_mod_inj e2
  have d3 := ziffernZeichen_mod_inj e3
  have d4 := ziffernZeichen_mod_inj e4
  have d5 := ziffernZeichen_mod_inj e5
  have d6 := ziffernZeichen_mod_inj e6
  have d7 := ziffernZeichen_mod_inj e7
  have d8 := ziffernZeichen_mod_inj e8
  refine ⟨by omega, by omega, by omega⟩

theorem datumKey_eq_of_gleich {u t : Termin} (h : GleichesKalenderdatum u t) :
    datumKey u = datumKey t := by
  obtain ⟨h1, h2, h3⟩ := h
  unfold datumKey datumsSchluessel vierstellig zweistellig
  rw [h1, h2, h3]

theorem gleich_of_datumKey_eq {u t : Termin} (hu : gueltigesDatum u.datum)
    (ht : gueltigesDatum t.datum) (h : datumKey u = datumKey t) :
    GleichesKalenderdatum u t :=
  datumsSchluessel_inj hu ht h

-- -------------------------------------------------------------------
-- C6: events on different calendar dates are never merged
-- -------------------------------------------------------------------

theorem namensKollision_selbst (a : Termin) : namensKollision a a = true := by
  simp [namensKollision]

theorem kopf_mem_behalteSchleife (c : Termin) (rest : List Termin) :
    c ∈ behalteSchleife (c :: rest) [] := by
  have hd : istDuplikat c [] = false := by simp [istDuplikat]
  show c ∈ (if istDuplikat c [] = true then behalteSchleife rest []
    else behalteSchleife rest ([] ++ [c]))
  rw [if_neg (by simp [hd])]
  exact mem_acc_behalteSchleife (by simp)

theorem mem_behalteGruppe_mem_entferne {ts : List Termin} {k : String} {x : Termin}
    (hk : k ∈ sortierteSchluessel ts) (hx : x ∈ behalteGruppe ts k) :
    x ∈ entferne_duplikate ts :=
  mem_entferne_duplikate_iff.mpr ⟨k, hk, hx⟩

/-- C6: deduplication never crosses calendar dates.  First part: an input
event missing from the output is always represented by a retained event
with exactly the same calendar date.  Second part: an event whose
calendar date is unique in the input always appears in the output,
regardless of any name similarity with events on other dates. -/
theorem datumsgrenzen_c6 (xs : List Termin) (hv : ∀ t ∈ xs, gueltigesDatum t.datum) :
    (∀ t ∈ xs, t ∉ entferne_duplikate xs →
      ∃ v ∈ entferne_duplikate xs, GleichesKalenderdatum v t) ∧
    (∀ t ∈ xs, (∀ u ∈ xs, GleichesKalenderdatum u t → u = t) →
      t ∈ entferne_duplikate xs) := by
  constructor
  · intro t ht hnot
    have hkmem : datumKey t ∈ sortierteSchluessel xs :=
      mem_sortierteSchluessel.mpr ⟨t, ht, rfl⟩
    have htS : t ∈ sortiereStabil scoreAbsteigend (datumsGruppe xs (datumKey t)) := by
      rw [(sortiereStabil_perm scoreAbsteigend _).mem_iff]
      exact List.mem_filter.mpr ⟨ht, by simp⟩
    have htnot : t ∉ behalteGruppe xs (datumKey t) := by
      intro hmem
      exact hnot (mem_behalteGruppe_mem_entferne hkmem hmem)
    obtain ⟨v, hv2, -, -⟩ := behalteSchleife_verworfen htS htnot
    refine ⟨v, mem_behalteGruppe_mem_entferne hkmem hv2, ?_⟩
    have hvk : datumKey v = datumKey t := (mem_behalteGruppe hv2).2
    have hvxs : v ∈ xs := (mem_behalteGruppe hv2).1
    exact gleich_of_datumKey_eq (hv v hvxs) (hv t ht) hvk
  · intro t ht huniq
    have hkmem : datumKey t ∈ sortierteSchluessel xs :=
      mem_sortierteSchluessel.mpr ⟨t, ht, rfl⟩
    have halle : ∀ x ∈ sortiereStabil scoreAbsteigend (datumsGruppe xs (datumKey t)), x = t := by
      intro x hx
      have hx2 : x ∈ datumsGruppe xs (datumKey t) :=
        (sortiereStabil_perm scoreAbsteigend _).mem_iff.mp hx
      have hx3 := List.mem_filter.mp hx2
      have hx4 : datumKey x = datumKey t := of_decide_eq_true hx3.2
      exact huniq x hx3.1 (gleich_of_datumKey_eq (hv x hx3.1) (hv t ht) hx4)
    have htS : t ∈ sortiereStabil scoreAbsteigend (datumsGruppe xs (datumKey t)) := by
      rw [(sortiereStabil_perm scoreAbsteigend _).mem_iff]
      exact List.mem_filter.mpr ⟨ht, by simp⟩
    refine mem_behalteGruppe_mem_entferne hkmem ?_
    unfold behalteGruppe
    cases hS : sortiereStabil scoreAbsteigend (datumsGruppe xs (datumKey t)) with
    | nil => rw [hS] at htS; cases htS
    | cons c rest =>
      have hc : c = t := halle c (by rw [hS]; exact List.mem_cons_self c rest)
      subst hc
      exact kopf_mem_behalteSchleife c rest

/-- C6 witness: a concrete two-event input in which `Festival`
(2025-12-06) and `Fest` (2025-12-07) collide under name containment but
sit on different dates: `Fest` has a unique date and is retained. -/
theorem datumsgrenzen_c6_witness :
    ({ name := "Fest", datum := ⟨2025, 12, 7, 0, 0, 0⟩, uhrzeit := "",
       ort := "", link := "" } : Termin) ∈
      entferne_duplikate
        [{ name := "Festival", datum := ⟨2025, 12, 6, 0, 0, 0⟩, uhrzeit := "",
           ort := "", link := "" },
         { name := "Fest", datum := ⟨2025, 12, 7, 0, 0, 0⟩, uhrzeit := "",
           ort := "", link := "" }] :=
  (datumsgrenzen_c6 _ (by decide)).2 _ (by decide) (by decide)

-- -------------------------------------------------------------------
-- C10: the kept set of every date bucket is pairwise non-duplicate
-- -------------------------------------------------------------------

theorem namensKollision_symm (a b : Termin) : namensKollision a b = namensKollision b a := by
  unfold namensKollision
  cases h1 : ((_normalisiere a.name).toList == (_normalisiere b.name).toList)
  · have h2 : ((_normalisiere b.name).toList == (_normalisiere a.name).toList) = false := by
      rw [beq_eq_false_iff_ne] at h1 ⊢
      exact fun he => h1 he.symm
    simp only [h1, h2, Bool.false_or]
    exact Bool.or_comm _ _
  · rw [beq_iff_eq] at h1
    rw [h1]

theorem pairwise_kein_duplikat_behalteGruppe (ts : List Termin) (k : String) :
    (behalteGruppe ts k).Pairwise KeinNamensDuplikat := by
  have h := pairwise_behalteSchleife
    (sortiereStabil scoreAbsteigend (datumsGruppe ts k)) [] (by simp)
  refine h.imp ?_
  intro a b hab
  exact ⟨by rw [namensKollision_symm]; exact hab, hab⟩

/-- C10: output cleanliness invariant.  Any two events in the output of
`entferne_duplikate` that carry the same calendar date have normalized
names that are neither equal nor a substring of one another: each date
bucket of the output is pairwise non-duplicate under the name rule. -/
theorem ausgabe_sauber_c10 (xs : List Termin) :
    (entferne_duplikate xs).Pairwise
      (fun a b => GleichesKalenderdatum a b → KeinNamensDuplikat a b) := by
  rw [entferne_duplikate_eq, List.pairwise_flatMap]
  constructor
  · intro k _
    exact (pairwise_kein_duplikat_behalteGruppe xs k).imp
      (fun {a b} h => fun (_ : GleichesKalenderdatum a b) => h)
  · have hnd : (sortierteSchluessel xs).Pairwise (· ≠ ·) := nodup_sortierteSchluessel xs
    refine hnd.imp ?_
    intro k1 k2 hne x hx y hy hdate
    exfalso
    apply hne
    calc k1 = datumKey x := (mem_behalteGruppe hx).2.symm
    _ = datumKey y := datumKey_eq_of_gleich hdate
    _ = k2 := (mem_behalteGruppe hy).2

-- -------------------------------------------------------------------
-- Order properties of the comparisons
-- -------------------------------------------------------------------

theorem zeichenlisteLt_irrefl : ∀ (a : List Char), zeichenlisteLt a a = false
  | [] => rfl
  | c :: rest => by
    simp only [zeichenlisteLt, Nat.lt_irrefl, if_false]
    exact zeichenlisteLt_irrefl rest

theorem zeichenlisteLt_trans : ∀ {a b c : List Char}, zeichenlisteLt a b = true →
    zeichenlisteLt b c = true → zeichenlisteLt a c = true
  | [], b, c, h1, h2 => by
    cases b with
    | nil => cases h1
    | cons b0 bs =>
      cases c with
      | nil => cases h2
      | cons c0 cs => rfl
  | _ :: _, [], _, h1, _ => by cases h1
  | _ :: _, _ :: _, [], _, h2 => by cases h2
  | a0 :: as, b0 :: bs, c0 :: cs, h1, h2 => by
    simp only [zeichenlisteLt] at h1 h2 ⊢
    by_cases hab : a0.toNat < b0.toNat
    · by_cases hbc : b0.toNat < c0.toNat
      · rw [if_pos (show a0.toNat < c0.toNat by omega)]
      · rw [if_neg hbc] at h2
        by_cases hcb : c0.toNat < b0.toNat
        · rw [if_pos hcb] at h2; cases h2
        · rw [if_pos (show a0.toNat < c0.toNat by omega)]
    · rw [if_neg hab] at h1
      by_cases hba : b0.toNat < a0.toNat
      · rw [if_pos hba] at h1; cases h1
      · rw [if_neg hba] at h1
        by_cases hbc : b0.toNat < c0.toNat
        · rw [if_pos (show a0.toNat < c0.toNat by omega)]
        · rw [if_neg hbc] at h2
          by_cases hcb : c0.toNat < b0.toNat
          · rw [if_pos hcb] at h2; cases h2
          · rw [if_neg hcb] at h2
            rw [if_neg (show ¬ a0.toNat < c0.toNat by omega),
              if_neg (show ¬ c0.toNat < a0.toNat by omega)]
            exact zeichenlisteLt_trans h1 h2

theorem zeichenlisteLt_trichotomie : ∀ (a b : List Char),
    zeichenlisteLt a b = true ∨ zeichenlisteLt b a = true ∨ a = b
  | [], [] => Or.inr (Or.inr rfl)
  | [], _ :: _ => Or.inl rfl
  | _ :: _, [] => Or.inr (Or.inl rfl)
  | a0 :: as, b0 :: bs => by
    by_cases hab : a0.toNat < b0.toNat
    · exact Or.inl (by simp only [zeichenlisteLt, if_pos hab])
    · by_cases hba : b0.toNat < a0.toNat
      · exact Or.inr (Or.inl (by simp only [zeichenlisteLt, if_pos hba]))
      · have heq : a0 = b0 := zeichen_eq_of_toNat_eq (by omega)
        subst heq
        rcases zeichenlisteLt_trichotomie as bs with h | h | h
        · refine Or.inl ?_
          simp only [zeichenlisteLt, if_neg (Nat.lt_irrefl _)]
          exact h
        · refine Or.inr (Or.inl ?_)
          simp only [zeichenlisteLt, if_neg (Nat.lt_irrefl _)]
          exact h
        · exact Or.inr (Or.inr (by rw [h]))

theorem string_eq_of_nicht_lt {a b : String} (h1 : stringLt a b = false)
    (h2 : stringLt b a = false) : a = b := by
  rcases zeichenlisteLt_trichotomie a.toList b.toList with h | h | h
  · rw [stringLt] at h1; rw [h1] at h; cases h
  · rw [stringLt] at h2; rw [h2] at h; cases h
  · exact String.ext h

theorem schluesselLe_trans (a b c : String) : schluesselLe a b = true →
    schluesselLe b c = true → schluesselLe a c = true := by
  simp only [schluesselLe, Bool.not_eq_true', stringLt]
  intro h1 h2
  by_contra hca
  rw [Bool.not_eq_false] at hca
  rcases zeichenlisteLt_trichotomie b.toList c.toList with h | h | h
  · rw [zeichenlisteLt_trans h hca] at h1; cases h1
  · rw [h] at h2; cases h2
  · have hbc : b = c := String.ext h
    subst hbc
    rw [hca] at h1; cases h1

theorem schluesselLe_total (a b : String) :
    schluesselLe a b = true ∨ schluesselLe b a = true := by
  simp only [schluesselLe, Bool.not_eq_true', stringLt]
  cases h : zeichenlisteLt b.toList a.toList with
  | false => exact Or.inl rfl
  | true =>
    refine Or.inr ?_
    cases h2 : zeichenlisteLt a.toList b.toList with
    | false => rfl
    | true =>
      have h3 := zeichenlisteLt_trans h h2
      rw [zeichenlisteLt_irrefl] at h3
      cases h3

theorem schluesselLe_antisymm (a b : String) (h1 : schluesselLe a b = true)
    (h2 : schluesselLe b a = true) : a = b := by
  simp only [schluesselLe, Bool.not_eq_true', stringLt] at h1 h2
  rcases zeichenlisteLt_trichotomie a.toList b.toList with h | h | h
  · rw [h] at h2; cases h2
  · rw [h] at h1; cases h1
  · exact String.ext h

theorem scoreAbsteigend_trans (a b c : Termin) : scoreAbsteigend a b = true →
    scoreAbsteigend b c = true → scoreAbsteigend a c = true := by
  simp only [scoreAbsteigend, decide_eq_true_eq]
  omega

theorem scoreAbsteigend_total (a b : Termin) :
    scoreAbsteigend a b = true ∨ scoreAbsteigend b a = true := by
  simp only [scoreAbsteigend, decide_eq_true_eq]
  omega

-- -------------------------------------------------------------------
-- C4: idempotence of the reconciler
-- -------------------------------------------------------------------

theorem sortiert_nodup_ext (le : α → α → Bool)
    (hanti : ∀ a b, le a b = true → le b a = true → a = b) :
    ∀ {l1 l2 : List α}, l1.Pairwise (fun x y => le x y = true) →
      l2.Pairwise (fun x y => le x y = true) →
      l1.Nodup → l2.Nodup → (∀ x, x ∈ l1 ↔ x ∈ l2) → l1 = l2
  | [], [], _, _, _, _, _ => rfl
  | [], b :: t2, _, _, _, _, hmem => by
    have h := (hmem b).mpr (List.mem_cons_self b t2)
    cases h
  | a :: t1, [], _, _, _, _, hmem => by
    have h := (hmem a).mp (List.mem_cons_self a t1)
    cases h
  | a :: t1, b :: t2, h1, h2, hn1, hn2, hmem => by
    rw [List.pairwise_cons] at h1 h2
    rw [List.nodup_cons] at hn1 hn2
    have hab : a = b := by
      rcases List.mem_cons.mp ((hmem a).mp (List.mem_cons_self a t1)) with h | h
      · exact h
      · rcases List.mem_cons.mp ((hmem b).mpr (List.mem_cons_self b t2)) with h3 | h3
        · exact h3.symm
        · exact hanti a b (h1.1 b h3) (h2.1 a h)
    subst hab
    have hmem2 : ∀ x, x ∈ t1 ↔ x ∈ t2 := by
      intro x
      constructor
      · intro hx
        rcases List.mem_cons.mp ((hmem x).mp (List.mem_cons_of_mem a hx)) with h | h
        · subst h; exact absurd hx hn1.1
        · exact h
      · intro hx
        rcases List.mem_cons.mp ((hmem x).mpr (List.mem_cons_of_mem a hx)) with h | h
        · subst h; exact absurd hx hn2.1
        · exact h
    rw [sortiert_nodup_ext le hanti h1.2 h2.2 hn1.2 hn2.2 hmem2]

theorem behalteGruppe_nichtleer {xs : List Termin} {k : String}
    (hk : k ∈ sortierteSchluessel xs) : ∃ t, t ∈ behalteGruppe xs k := by
  obtain ⟨t, ht, hkey⟩ := mem_sortierteSchluessel.mp hk
  have htS : t ∈ sortiereStabil scoreAbsteigend (datumsGruppe xs k) := by
    rw [(sortiereStabil_perm scoreAbsteigend _).mem_iff]
    exact List.mem_filter.mpr ⟨ht, by simp [hkey]⟩
  unfold behalteGruppe
  cases hS : sortiereStabil scoreAbsteigend (datumsGruppe xs k) with
  | nil => rw [hS] at htS; cases htS
  | cons c rest => exact ⟨c, kopf_mem_behalteSchleife c rest⟩

theorem mem_entferne_mem {xs : List Termin} {t : Termin}
    (ht : t ∈ entferne_duplikate xs) : t ∈ xs := by
  obtain ⟨k, _, hk⟩ := mem_entferne_duplikate_iff.mp ht
  exact (mem_behalteGruppe hk).1

theorem sortierteSchluessel_pairwise (ts : List Termin) :
    (sortierteSchluessel ts).Pairwise (fun x y => schluesselLe x y = true) :=
  pairwise_sortiereStabil schluesselLe schluesselLe_trans schluesselLe_total _

theorem sortierteSchluessel_entferne (xs : List Termin) :
    sortierteSchluessel (entferne_duplikate xs) = sortierteSchluessel xs := by
  refine sortiert_nodup_ext schluesselLe schluesselLe_antisymm
    (sortierteSchluessel_pairwise _) (sortierteSchluessel_pairwise _)
    (nodup_sortierteSchluessel _) (nodup_sortierteSchluessel _) ?_
  intro k
  rw [mem_sortierteSchluessel, mem_sortierteSchluessel]
  constructor
  · rintro ⟨t, ht, rfl⟩
    exact ⟨t, mem_entferne_mem ht, rfl⟩
  · rintro ⟨t, ht, rfl⟩
    have hk : datumKey t ∈ sortierteSchluessel xs := mem_sortierteSchluessel.mpr ⟨t, ht, rfl⟩
    obtain ⟨u, hu⟩ := behalteGruppe_nichtleer hk
    exact ⟨u, mem_behalteGruppe_mem_entferne hk hu, (mem_behalteGruppe hu).2⟩

theorem flatMap_einzel (f : String → List Termin) :
    ∀ (ks : List String) (k : String), ks.Nodup → k ∈ ks →
      (ks.flatMap fun x => if x = k then f x else []) = f k
  | [], k, _, hk => by cases hk
  | a :: rest, k, hnd, hk => by
    rw [List.nodup_cons] at hnd
    rw [List.flatMap_cons]
    rcases List.mem_cons.mp hk with rfl | hk2
    · rw [if_pos rfl]
      have hrest : (rest.flatMap fun x => if x = k then f x else []) = [] := by
        rw [List.flatMap_eq_nil_iff]
        intro k2 hk3
        have hne : ¬ k2 = k := by
          intro heq
          rw [heq] at hk3
          exact hnd.1 hk3
        rw [if_neg hne]
      rw [hrest, List.append_nil]
    · have hne : a ≠ k := fun heq => hnd.1 (heq ▸ hk2)
      rw [if_neg hne, List.nil_append]
      exact flatMap_einzel f rest k hnd.2 hk2

theorem datumsGruppe_entferne {xs : List Termin} {k : String}
    (hk : k ∈ sortierteSchluessel xs) :
    datumsGruppe (entferne_duplikate xs) k = behalteGruppe xs k := by
  unfold datumsGruppe
  rw [entferne_duplikate_eq, List.filter_flatMap]
  have hstep : ∀ k2 ∈ sortierteSchluessel xs,
      List.filter (fun t => decide (datumKey t = k)) (behalteGruppe xs k2) =
        if k2 = k then behalteGruppe xs k2 else [] := by
    intro k2 _
    by_cases h : k2 = k
    · subst h
      rw [if_pos rfl, List.filter_eq_self]
      intro t ht
      exact decide_eq_true (mem_behalteGruppe ht).2
    · rw [if_neg h, List.filter_eq_nil_iff]
      intro t ht
      rw [decide_eq_true_eq]
      intro hkey
      exact h (((mem_behalteGruppe ht).2).symm.trans hkey)
  rw [List.flatMap_congr hstep]
  exact flatMap_einzel (behalteGruppe xs) _ k (nodup_sortierteSchluessel xs) hk

theorem pairwise_score_behalteGruppe (xs : List Termin) (k : String) :
    (behalteGruppe xs k).Pairwise (fun x y => scoreAbsteigend x y = true) := by
  have hS := pairwise_sortiereStabil scoreAbsteigend scoreAbsteigend_trans
    scoreAbsteigend_total (datumsGruppe xs k)
  exact List.Pairwise.sublist (behalteSchleife_sublist _) hS

theorem behalteGruppe_entferne {xs : List Termin} {k : String}
    (hk : k ∈ sortierteSchluessel xs) :
    behalteGruppe (entferne_duplikate xs) k = behalteGruppe xs k := by
  unfold behalteGruppe
  rw [show datumsGruppe (entferne_duplikate xs) k = behalteGruppe xs k from
    datumsGruppe_entferne hk]
  rw [sortiereStabil_eq_self scoreAbsteigend _ (pairwise_score_behalteGruppe xs k)]
  have hpw := pairwise_behalteSchleife
    (sortiereStabil scoreAbsteigend (datumsGruppe xs k)) [] (by simp)
  have h := behalteSchleife_eq_append (behalteGruppe xs k) [] hpw (by simp)
  rw [List.nil_append] at h
  exact h

/-- C4: deduplication is idempotent.  Running `entferne_duplikate` on its
own output changes nothing: the output groups into the same date buckets
with the same sorted keys, each kept bucket is already sorted by
descending score, and the keep loop retains every event of a bucket that
is already pairwise non-duplicate. -/
theorem entferne_duplikate_idempotent_c4 (xs : List Termin) :
    entferne_duplikate (entferne_duplikate xs) = entferne_duplikate xs := by
  conv_lhs => rw [entferne_duplikate_eq]
  rw [sortierteSchluessel_entferne]
  conv_rhs => rw [entferne_duplikate_eq]
  exact List.flatMap_congr fun k hk => behalteGruppe_entferne hk

-- -------------------------------------------------------------------
-- C5: the kept duplicate always has the equal-or-higher score
-- -------------------------------------------------------------------

theorem paar_sublist_total {l : List α} (hnd : l.Nodup) {x y : α} (hx : x ∈ l)
    (hy : y ∈ l) (hne : x ≠ y) : [x, y].Sublist l ∨ [y, x].Sublist l := by
  induction l with
  | nil => cases hx
  | cons a t ih =>
    rw [List.nodup_cons] at hnd
    rcases List.mem_cons.mp hx with rfl | hx2
    · have hy2 : y ∈ t := by
        rcases List.mem_cons.mp hy with h | h
        · exact absurd h.symm hne
        · exact h
      exact Or.inl ((List.singleton_sublist.mpr hy2).cons₂ x)
    · rcases List.mem_cons.mp hy with rfl | hy2
      · exact Or.inr ((List.singleton_sublist.mpr hx2).cons₂ y)
      · rcases ih hnd.2 hx2 hy2 with h | h
        · exact Or.inl (h.cons a)
        · exact Or.inr (h.cons a)

theorem paar_sublist_antisymm : ∀ {l : List α}, l.Nodup → ∀ {x y : α}, x ≠ y →
    [x, y].Sublist l → [y, x].Sublist l → False := by
  intro l
  induction l with
  | nil => intro _ x y _ h1 _; cases h1
  | cons a t ih =>
    intro hnd x y hne h1 h2
    rw [List.nodup_cons] at hnd
    cases h1 with
    | cons₂ _ h1t =>
      cases h2 with
      | cons₂ _ h2t => exact hne rfl
      | cons _ h2t =>
        exact hnd.1 (h2t.subset (by simp))
    | cons _ h1t =>
      cases h2 with
      | cons₂ _ h2t =>
        exact hnd.1 (h1t.subset (by simp))
      | cons _ h2t => exact ih hnd.2 hne h1t h2t

/-- C5: whenever `entferne_duplikate` discards an event of a duplicate
free input list, some retained event on the same calendar date collides
with it under the name rule and carries an equal or higher quality score;
when the scores are equal the retained event is the one occurring earlier
in the original input order. -/
theorem score_monotonie_c5 (xs : List Termin) (hnd : xs.Nodup)
    (hv : ∀ t ∈ xs, gueltigesDatum t.datum) (k : Termin) (hk : k ∈ xs)
    (hdrop : k ∉ entferne_duplikate xs) :
    ∃ v ∈ entferne_duplikate xs, GleichesKalenderdatum v k ∧
      namensKollision k v = true ∧ _termin_score k ≤ _termin_score v ∧
      (_termin_score v = _termin_score k → [v, k].Sublist xs) := by
  have hkmem : datumKey k ∈ sortierteSchluessel xs :=
    mem_sortierteSchluessel.mpr ⟨k, hk, rfl⟩
  have hkS : k ∈ sortiereStabil scoreAbsteigend (datumsGruppe xs (datumKey k)) := by
    rw [(sortiereStabil_perm scoreAbsteigend _).mem_iff]
    exact List.mem_filter.mpr ⟨hk, by simp⟩
  have hknot : k ∉ behalteGruppe xs (datumKey k) := by
    intro hmem
    exact hdrop (mem_behalteGruppe_mem_entferne hkmem hmem)
  obtain ⟨v, hvkept, hkoll, hvor⟩ := behalteSchleife_verworfen hkS hknot
  have hpaarS : [v, k].Sublist (sortiereStabil scoreAbsteigend (datumsGruppe xs (datumKey k))) := by
    rcases hvor with h | h
    · cases h
    · exact h
  have hvout : v ∈ entferne_duplikate xs := mem_behalteGruppe_mem_entferne hkmem hvkept
  have hvxs : v ∈ xs := (mem_behalteGruppe hvkept).1
  have hscore : scoreAbsteigend v k = true := by
    have hS := pairwise_sortiereStabil scoreAbsteigend scoreAbsteigend_trans
      scoreAbsteigend_total (datumsGruppe xs (datumKey k))
    have hp := List.Pairwise.sublist hpaarS hS
    rw [List.pairwise_cons] at hp
    exact hp.1 k (by simp)
  refine ⟨v, hvout, ?_, hkoll, ?_, ?_⟩
  · exact gleich_of_datumKey_eq (hv v hvxs) (hv k hk)
      (((mem_behalteGruppe hvkept).2).trans rfl)
  · rw [scoreAbsteigend, decide_eq_true_eq] at hscore
    exact hscore
  · intro htie
    have hne : v ≠ k := by
      intro heq
      exact hdrop (heq ▸ hvout)
    have hBnd : (datumsGruppe xs (datumKey k)).Nodup :=
      (List.filter_sublist xs).nodup hnd
    have hSnd : (sortiereStabil scoreAbsteigend (datumsGruppe xs (datumKey k))).Nodup :=
      ((sortiereStabil_perm scoreAbsteigend _).nodup_iff).mpr hBnd
    have hvB : v ∈ datumsGruppe xs (datumKey k) := by
      rcases mem_of_mem_behalteSchleife hvkept with h | h
      · cases h
      · exact (sortiereStabil_perm scoreAbsteigend _).mem_iff.mp h
    have hkB : k ∈ datumsGruppe xs (datumKey k) := by
      exact (sortiereStabil_perm scoreAbsteigend _).mem_iff.mp hkS
    have hpaarB : [v, k].Sublist (datumsGruppe xs (datumKey k)) := by
      rcases paar_sublist_total hBnd hvB hkB hne with h | h
      · exact h
      · exfalso
        have hkv : scoreAbsteigend k v = true := by
          rw [scoreAbsteigend, decide_eq_true_eq, htie]
        have hkvS := pair_sublist_sortiereStabil scoreAbsteigend h hkv
        exact paar_sublist_antisymm hSnd hne hpaarS hkvS
    exact hpaarB.trans (List.filter_sublist xs)

/-- C5 witness: the concrete substring pair of the specification, dated
2025-12-06: the low-scored `Weihnachtsmarkt` is discarded in favour of
the high-scored `Weihnachtsmarkt Innenstadt`, which occurs earlier. -/
theorem score_monotonie_c5_witness :
    ∃ v ∈ entferne_duplikate
        [{ name := "Weihnachtsmarkt Innenstadt", datum := ⟨2025, 12, 6, 0, 0, 0⟩,
           uhrzeit := "18:00 Uhr", ort := "Innenstadt", link := "https://re.de",
           beschreibung := "Markt" },
         { name := "Weihnachtsmarkt", datum := ⟨2025, 12, 6, 0, 0, 0⟩,
           uhrzeit := "", ort := "", link := "" }],
      GleichesKalenderdatum v
          { name := "Weihnachtsmarkt", datum := ⟨2025, 12, 6, 0, 0, 0⟩,
            uhrzeit := "", ort := "", link := "" } ∧
        namensKollision
            { name := "Weihnachtsmarkt", datum := ⟨2025, 12, 6, 0, 0, 0⟩,
              uhrzeit := "", ort := "", link := "" } v = true ∧
        _termin_score
            { name := "Weihnachtsmarkt", datum := ⟨2025, 12, 6, 0, 0, 0⟩,
              uhrzeit := "", ort := "", link := "" } ≤ _termin_score v ∧
        (_termin_score v =
            _termin_score
              { name := "Weihnachtsmarkt", datum := ⟨2025, 12, 6, 0, 0, 0⟩,
                uhrzeit := "", ort := "", link := "" } →
          [v, { name := "Weihnachtsmarkt", datum := ⟨2025, 12, 6, 0, 0, 0⟩,
                uhrzeit := "", ort := "", link := "" }].Sublist
            [{ name := "Weihnachtsmarkt Innenstadt", datum := ⟨2025, 12, 6, 0, 0, 0⟩,
               uhrzeit := "18:00 Uhr", ort := "Innenstadt", link := "https://re.de",
               beschreibung := "Markt" },
             { name := "Weihnachtsmarkt", datum := ⟨2025, 12, 6, 0, 0, 0⟩,
               uhrzeit := "", ort := "", link := "" }]) :=
  score_monotonie_c5 _ (by decide) (by decide) _ (by decide) (by decide)

-- -------------------------------------------------------------------
-- C1: order invariance of the pipeline
-- -------------------------------------------------------------------

theorem sortiert_perm_eq (le : α → α → Bool) :
    ∀ {l1 l2 : List α}, List.Perm l1 l2 →
      l1.Pairwise (fun x y => le x y = true) →
      l2.Pairwise (fun x y => le x y = true) →
      (∀ a ∈ l1, ∀ b ∈ l1, le a b = true → le b a = true → a = b) → l1 = l2
  | [], l2, hperm, _, _, _ => (List.Perm.eq_nil hperm.symm).symm
  | a :: t1, [], hperm, _, _, _ => by
    have h := hperm.mem_iff.mp (List.mem_cons_self a t1)
    cases h
  | a :: t1, b :: t2, hperm, h1, h2, hanti => by
    rw [List.pairwise_cons] at h1 h2
    have hab : a = b := by
      rcases List.mem_cons.mp (hperm.mem_iff.mp (List.mem_cons_self a t1)) with h | h
      · exact h
      · rcases List.mem_cons.mp (hperm.symm.mem_iff.mp (List.mem_cons_self b t2)) with h3 | h3
        · exact h3.symm
        · exact hanti a (List.mem_cons_self a t1) b (List.mem_cons_of_mem a h3)
            (h1.1 b h3) (h2.1 a h)
    subst hab
    have hperm2 : List.Perm t1 t2 := hperm.cons_inv
    have hanti2 : ∀ x ∈ t1, ∀ y ∈ t1, le x y = true → le y x = true → x = y :=
      fun x hx y hy => hanti x (List.mem_cons_of_mem a hx) y (List.mem_cons_of_mem a hy)
    rw [sortiert_perm_eq le hperm2 h1.2 h2.2 hanti2]

theorem entferne_duplikate_perm_inv {xs ys : List Termin} (hperm : List.Perm xs ys)
    (hscore : ∀ a ∈ xs, ∀ b ∈ xs, datumKey a = datumKey b →
      _termin_score a = _termin_score b → a = b) :
    entferne_duplikate ys = entferne_duplikate xs := by
  rw [entferne_duplikate_eq, entferne_duplikate_eq]
  have hkeys : sortierteSchluessel ys = sortierteSchluessel xs := by
    refine sortiert_nodup_ext schluesselLe schluesselLe_antisymm
      (sortierteSchluessel_pairwise _) (sortierteSchluessel_pairwise _)
      (nodup_sortierteSchluessel _) (nodup_sortierteSchluessel _) ?_
    intro k
    rw [mem_sortierteSchluessel, mem_sortierteSchluessel]
    constructor
    · rintro ⟨t, ht, rfl⟩
      exact ⟨t, hperm.mem_iff.mpr ht, rfl⟩
    · rintro ⟨t, ht, rfl⟩
      exact ⟨t, hperm.mem_iff.mp ht, rfl⟩
  rw [hkeys]
  refine List.flatMap_congr ?_
  intro k _
  unfold behalteGruppe
  have hgleich : sortiereStabil scoreAbsteigend (datumsGruppe ys k) =
      sortiereStabil scoreAbsteigend (datumsGruppe xs k) := by
    refine sortiert_perm_eq scoreAbsteigend ?_
      (pairwise_sortiereStabil scoreAbsteigend scoreAbsteigend_trans scoreAbsteigend_total _)
      (pairwise_sortiereStabil scoreAbsteigend scoreAbsteigend_trans scoreAbsteigend_total _)
      ?_
    · exact ((sortiereStabil_perm scoreAbsteigend _).trans
        ((hperm.filter _).symm)).trans (sortiereStabil_perm scoreAbsteigend _).symm
    · intro a ha b hb hab hba
      have ha2 : a ∈ datumsGruppe ys k := (sortiereStabil_perm scoreAbsteigend _).mem_iff.mp ha
      have hb2 : b ∈ datumsGruppe ys k := (sortiereStabil_perm scoreAbsteigend _).mem_iff.mp hb
      have ha3 := List.mem_filter.mp ha2
      have hb3 := List.mem_filter.mp hb2
      rw [scoreAbsteigend, decide_eq_true_eq] at hab hba
      refine hscore a (hperm.mem_iff.mpr ha3.1) b (hperm.mem_iff.mpr hb3.1) ?_ (by omega)
      rw [of_decide_eq_true ha3.2, of_decide_eq_true hb3.2]
  rw [hgleich]

/-- C1 (counterexample): permuting the input changes the final sorted
output.  The two events share the calendar date and the quality score,
and their names both normalize to `fest`, so exactly one survives; the
stable score sort keeps input order among equal scores, hence each
ordering keeps its own first event and the two final outputs differ. -/
theorem ordnungsinvarianz_gegenbeispiel_c1 :
    List.Perm
      [{ name := "Fest!", datum := ⟨2025, 12, 6, 0, 0, 0⟩, uhrzeit := "",
         ort := "", link := "" },
       ({ name := "Fest?", datum := ⟨2025, 12, 6, 0, 0, 0⟩, uhrzeit := "",
          ort := "", link := "" } : Termin)]
      [{ name := "Fest?", datum := ⟨2025, 12, 6, 0, 0, 0⟩, uhrzeit := "",
         ort := "", link := "" },
       { name := "Fest!", datum := ⟨2025, 12, 6, 0, 0, 0⟩, uhrzeit := "",
         ort := "", link := "" }] ∧
    pipeline
        [{ name := "Fest?", datum := ⟨2025, 12, 6, 0, 0, 0⟩, uhrzeit := "",
           ort := "", link := "" },
         { name := "Fest!", datum := ⟨2025, 12, 6, 0, 0, 0⟩, uhrzeit := "",
           ort := "", link := "" }] ≠
      pipeline
        [{ name := "Fest!", datum := ⟨2025, 12, 6, 0, 0, 0⟩, uhrzeit := "",
           ort := "", link := "" },
         { name := "Fest?", datum := ⟨2025, 12, 6, 0, 0, 0⟩, uhrzeit := "",
           ort := "", link := "" }] := by decide

/-- C1 (amended): if no two distinct events of the input that share a
date key carry equal quality scores, then permuting the input before
reconciliation yields an identical final sorted output. -/
theorem ordnungsinvarianz_c1 (xs ys : List Termin) (hperm : List.Perm xs ys)
    (hscore : ∀ a ∈ xs, ∀ b ∈ xs, datumKey a = datumKey b →
      _termin_score a = _termin_score b → a = b) :
    pipeline ys = pipeline xs := by
  unfold pipeline sortiereTermine
  rw [entferne_duplikate_perm_inv hperm hscore]

/-- C1 witness: two same-date events with distinct scores, in both
orders: the pipeline output is identical. -/
theorem ordnungsinvarianz_c1_witness :
    pipeline
        [{ name := "Poetry Slam", datum := ⟨2025, 12, 6, 0, 0, 0⟩, uhrzeit := "",
           ort := "", link := "" },
         { name := "Jazz Night", datum := ⟨2025, 12, 6, 0, 0, 0⟩, uhrzeit := "",
           ort := "", link := "https://re.de" }] =
      pipeline
        [{ name := "Jazz Night", datum := ⟨2025, 12, 6, 0, 0, 0⟩, uhrzeit := "",
           ort := "", link := "https://re.de" },
         { name := "Poetry Slam", datum := ⟨2025, 12, 6, 0, 0, 0⟩, uhrzeit := "",
           ort := "", link := "" }] :=
  ordnungsinvarianz_c1 _ _ (by decide) (by decide)

-- -------------------------------------------------------------------
-- C7: the final output is sorted by the (datum, uhrzeit, name) triple
-- -------------------------------------------------------------------

theorem stringLt_irrefl (s : String) : stringLt s s = false :=
  zeichenlisteLt_irrefl s.toList

theorem stringLt_trichotomie (a b : String) :
    stringLt a b = true ∨ stringLt b a = true ∨ a = b := by
  rcases zeichenlisteLt_trichotomie a.toList b.toList with h | h | h
  · exact Or.inl h
  · exact Or.inr (Or.inl h)
  · exact Or.inr (Or.inr (String.ext h))

theorem datumLt_iff (a b : DateTime) : datumLt a b = true ↔
    (a.jahr < b.jahr ∨ (a.jahr = b.jahr ∧ (a.monat < b.monat ∨ (a.monat = b.monat ∧
     (a.tag < b.tag ∨ (a.tag = b.tag ∧ (a.stunde < b.stunde ∨ (a.stunde = b.stunde ∧
     (a.minute < b.minute ∨ (a.minute = b.minute ∧
      a.sekunde < b.sekunde)))))))))) := by
  simp [datumLt, Bool.or_eq_true, Bool.and_eq_true, decide_eq_true_eq, beq_iff_eq]

theorem datumLt_irrefl (a : DateTime) : datumLt a a = false := by
  cases h : datumLt a a with
  | false => rfl
  | true =>
    rw [datumLt_iff] at h
    omega

theorem datumLt_trans {a b c : DateTime} (h1 : datumLt a b = true)
    (h2 : datumLt b c = true) : datumLt a c = true := by
  rw [datumLt_iff] at h1 h2 ⊢
  omega

theorem datumLt_trichotomie (a b : DateTime) :
    datumLt a b = true ∨ datumLt b a = true ∨ a = b := by
  obtain ⟨a1, a2, a3, a4, a5, a6⟩ := a
  obtain ⟨b1, b2, b3, b4, b5, b6⟩ := b
  rw [datumLt_iff, datumLt_iff]
  simp only [DateTime.mk.injEq]
  omega

theorem terminLt_iff (a b : Termin) : terminLt a b = true ↔
    (datumLt a.datum b.datum = true ∨ (a.datum = b.datum ∧
      (stringLt a.uhrzeit b.uhrzeit = true ∨ (a.uhrzeit = b.uhrzeit ∧
        stringLt a.name b.name = true)))) := by
  simp [terminLt, Bool.or_eq_true, Bool.and_eq_true, beq_iff_eq]

theorem terminLt_irrefl (a : Termin) : terminLt a a = false := by
  cases h : terminLt a a with
  | false => rfl
  | true =>
    rw [terminLt_iff] at h
    rcases h with h | ⟨-, h | ⟨-, h⟩⟩
    · rw [datumLt_irrefl] at h; cases h
    · rw [stringLt_irrefl] at h; cases h
    · rw [stringLt_irrefl] at h; cases h

theorem terminLt_trans {a b c : Termin} (h1 : terminLt a b = true)
    (h2 : terminLt b c = true) : terminLt a c = true := by
  rw [terminLt_iff] at h1 h2 ⊢
  rcases h1 with h1 | ⟨hd1, h1⟩
  · rcases h2 with h2 | ⟨hd2, h2⟩
    · exact Or.inl (datumLt_trans h1 h2)
    · exact Or.inl (hd2 ▸ h1)
  · rcases h2 with h2 | ⟨hd2, h2⟩
    · exact Or.inl (hd1 ▸ h2)
    · refine Or.inr ⟨hd1.trans hd2, ?_⟩
      rcases h1 with h1 | ⟨hu1, h1⟩
      · rcases h2 with h2 | ⟨hu2, h2⟩
        · exact Or.inl (zeichenlisteLt_trans h1 h2)
        · exact Or.inl (hu2 ▸ h1)
      · rcases h2 with h2 | ⟨hu2, h2⟩
        · exact Or.inl (hu1 ▸ h2)
        · exact Or.inr ⟨hu1.trans hu2, zeichenlisteLt_trans h1 h2⟩

theorem terminLt_asymm {a b : Termin} (h : terminLt a b = true) :
    terminLt b a = false := by
  cases h2 : terminLt b a with
  | false => rfl
  | true =>
    have h3 := terminLt_trans h h2
    rw [terminLt_irrefl] at h3
    cases h3

theorem terminLt_trichotomie (a b : Termin) :
    terminLt a b = true ∨ terminLt b a = true ∨ GleicheSortierung a b := by
  rcases datumLt_trichotomie a.datum b.datum with h | h | h
  · exact Or.inl (terminLt_iff a b |>.mpr (Or.inl h))
  · exact Or.inr (Or.inl (terminLt_iff b a |>.mpr (Or.inl h)))
  · rcases stringLt_trichotomie a.uhrzeit b.uhrzeit with h2 | h2 | h2
    · exact Or.inl (terminLt_iff a b |>.mpr (Or.inr ⟨h, Or.inl h2⟩))
    · exact Or.inr (Or.inl (terminLt_iff b a |>.mpr (Or.inr ⟨h.symm, Or.inl h2⟩)))
    · rcases stringLt_trichotomie a.name b.name with h3 | h3 | h3
      · exact Or.inl (terminLt_iff a b |>.mpr (Or.inr ⟨h, Or.inr ⟨h2, h3⟩⟩))
      · exact Or.inr (Or.inl (terminLt_iff b a |>.mpr (Or.inr ⟨h.symm, Or.inr ⟨h2.symm, h3⟩⟩)))
      · exact Or.inr (Or.inr ⟨h, h2, h3⟩)

theorem terminLt_kongruenz {b c : Termin} (h : GleicheSortierung b c) (a : Termin) :
    terminLt c a = terminLt b a := by
  obtain ⟨h1, h2, h3⟩ := h
  unfold terminLt
  rw [h1, h2, h3]

theorem terminLe_total (a b : Termin) : terminLe a b = true ∨ terminLe b a = true := by
  unfold terminLe
  cases h : terminLt b a with
  | false => exact Or.inl rfl
  | true => exact Or.inr (by rw [terminLt_asymm h]; rfl)

theorem terminLe_trans (a b c : Termin) : terminLe a b = true →
    terminLe b c = true → terminLe a c = true := by
  unfold terminLe
  simp only [Bool.not_eq_true']
  intro h1 h2
  cases hca : terminLt c a with
  | false => rfl
  | true =>
    exfalso
    rcases terminLt_trichotomie b c with h | h | h
    · have h4 := terminLt_trans h hca
      rw [h4] at h1; cases h1
    · rw [h] at h2; cases h2
    · rw [← terminLt_kongruenz h a, hca] at h1
      cases h1

/-- C7: the final pipeline output (deduplication followed by the list
sort with the `Termin` comparison) is sorted nondecreasingly in the
triple `(datum, uhrzeit, name)`; this comparison is a strict total order
on the triples (transitive, asymmetric, trichotomous up to equality of
the triple); and the pipeline is a deterministic function: identical
inputs yield the identical output list. -/
theorem sortierung_total_deterministisch_c7 (xs : List Termin) :
    (pipeline xs).Pairwise (fun a b => terminLt b a = false) ∧
    (∀ a b : Termin, terminLt a b = true ∨ terminLt b a = true ∨ GleicheSortierung a b) ∧
    (∀ a b : Termin, terminLt a b = true → terminLt b a = false) ∧
    (∀ a b c : Termin, terminLt a b = true → terminLt b c = true → terminLt a c = true) ∧
    (∀ ys : List Termin, xs = ys → pipeline xs = pipeline ys) := by
  refine ⟨?_, terminLt_trichotomie, fun a b => terminLt_asymm,
    fun a b c => terminLt_trans, fun ys h => by rw [h]⟩
  have hp := pairwise_sortiereStabil terminLe terminLe_trans terminLe_total
    (entferne_duplikate xs)
  refine hp.imp ?_
  intro a b h
  rw [terminLe, Bool.not_eq_true'] at h
  exact h

/-- C7 witness: the determinism component applied to a concrete input. -/
theorem sortierung_total_deterministisch_c7_witness :
    pipeline
        [{ name := "Jazz Night", datum := ⟨2025, 12, 6, 20, 0, 0⟩,
           uhrzeit := "20:00 Uhr", ort := "", link := "" }] =
      pipeline
        [{ name := "Jazz Night", datum := ⟨2025, 12, 6, 20, 0, 0⟩,
           uhrzeit := "20:00 Uhr", ort := "", link := "" }] :=
  (sortierung_total_deterministisch_c7 _).2.2.2.2 _ rfl

-- -------------------------------------------------------------------
-- C8: the PDF parser honours the month filter
-- -------------------------------------------------------------------

theorem string_mk_cons_ne_leer (c : Char) (l : List Char) : String.mk (c :: l) ≠ "" := by
  intro h
  have h2 := congrArg String.data h
  simp at h2

theorem stadtarchivSchleife_inv (jahr monat : Nat) (pdf_url : String) :
    ∀ (fuel : Nat) (lines : List (List Char)) (gesehen : List String),
      ∀ t ∈ stadtarchivSchleife jahr monat pdf_url fuel lines gesehen,
        t.datum.jahr = jahr ∧ t.datum.monat = monat ∧ t.name ≠ "" := by
  intro fuel
  induction fuel with
  | zero =>
    intro lines gesehen t ht
    cases ht
  | succ fuel ih =>
    intro lines gesehen t ht
    cases lines with
    | nil => cases ht
    | cons line rest =>
      rw [stadtarchivSchleife] at ht
      cases hzd : zeileDatum line with
      | none =>
        rw [hzd] at ht
        exact ih rest gesehen t ht
      | some pair =>
        obtain ⟨datum, uhrzeit⟩ := pair
        rw [hzd] at ht
        dsimp only [] at ht
        by_cases him : _im_monat datum jahr monat = true
        · rw [if_pos him] at ht
          rcases hst : sammleTitel rest [] with ⟨parts, rest2⟩
          rw [hst] at ht
          simp only [] at ht
          by_cases hname : repariereBindestrich (verbindeTitel parts) = []
          · rw [if_pos hname] at ht
            exact ih rest gesehen t ht
          · rw [if_neg hname] at ht
            by_cases hkey : stadtarchivSchluessel (repariereBindestrich (verbindeTitel parts))
                datum ∈ gesehen
            · rw [if_pos hkey] at ht
              exact ih rest gesehen t ht
            · rw [if_neg hkey] at ht
              rcases List.mem_cons.mp ht with rfl | ht2
              · rw [_im_monat, Bool.and_eq_true, decide_eq_true_eq, decide_eq_true_eq] at him
                refine ⟨him.1, him.2, ?_⟩
                cases hnm : repariereBindestrich (verbindeTitel parts) with
                | nil => exact absurd hnm hname
                | cons c cs => exact string_mk_cons_ne_leer c (List.take 149 cs)
              · exact ih rest2 _ t ht2
        · rw [if_neg him] at ht
          exact ih rest gesehen t ht

/-- C8: the pure PDF-text parser honours the ingestion contract of the
month filter: every event in the list returned by
`_parse_stadtarchiv_text text jahr monat pdf_url` carries a date inside
the requested year and month, and a non-empty name. -/
theorem stadtarchiv_monatsfilter_c8 (text : String) (jahr monat : Nat) (pdf_url : String) :
    ∀ t ∈ _parse_stadtarchiv_text text jahr monat pdf_url,
      t.datum.jahr = jahr ∧ t.datum.monat = monat ∧ t.name ≠ "" := by
  intro t ht
  exact stadtarchivSchleife_inv jahr monat pdf_url _ _ _ t ht

/-- C8 witness: the theorem applied to a concrete PDF text that parses
to one event in January 2026. -/
theorem stadtarchiv_monatsfilter_c8_witness :
    ({ name := "Vortrag Stadtgeschichte", datum := ⟨2026, 1, 14, 18, 0, 0⟩,
       uhrzeit := "18:00 Uhr", ort := "Institut für Stadtgeschichte", link := "u",
       beschreibung := "", quelle := "stadtarchiv",
       kategorie := "Geschichte" } : Termin).datum.jahr = 2026 ∧
    ({ name := "Vortrag Stadtgeschichte", datum := ⟨2026, 1, 14, 18, 0, 0⟩,
       uhrzeit := "18:00 Uhr", ort := "Institut für Stadtgeschichte", link := "u",
       beschreibung := "", quelle := "stadtarchiv",
       kategorie := "Geschichte" } : Termin).datum.monat = 1 ∧
    ({ name := "Vortrag Stadtgeschichte", datum := ⟨2026, 1, 14, 18, 0, 0⟩,
       uhrzeit := "18:00 Uhr", ort := "Institut für Stadtgeschichte", link := "u",
       beschreibung := "", quelle := "stadtarchiv",
       kategorie := "Geschichte" } : Termin).name ≠ "" :=
  stadtarchiv_monatsfilter_c8
    "Mittwoch, 14.01.2026, 18 Uhr\nVortrag Stadtgeschichte" 2026 1 "u" _ (by decide)
